import Mathlib

/-!
Verification development for the wikikit streaming extraction pipeline.

The definitions below are a shallow embedding of the Go sources:
`CanonicalizeTitle`, the namespace filter regexp, the four extraction
strategies (`CategoryExtractor`, `AuthorityDataExtractor`,
`WikidataEncoder`, `VanillaConverter`), the worker loop, and the
fan-out/shutdown protocol of `main` (version 1.1.2).  Machine bytes are
modelled as `Nat` with explicit `% 256` truncation; fallible parsing
returns `Except`/`Option`; the concurrent pipeline is modelled as an
explicit small-step transition system over configurations, with
interleavings given by action lists.
-/

/-- ASCII lowering, as Go `strings.ToLower` acts on ASCII titles
(`strings.ToLower` additionally folds non-ASCII letters; the claims and
the namespace filter only involve ASCII). -/
def goToLowerChar (c : Char) : Char :=
  if 65 ≤ c.toNat ∧ c.toNat ≤ 90 then Char.ofNat (c.toNat + 32) else c

/-- Go `strings.ToLower` on a whole string (ASCII model). -/
def goToLower (s : String) : String :=
  String.mk (s.data.map goToLowerChar)

/-- Go `strings.Replace(s, " ", "_", -1)`: every space becomes an underscore. -/
def replaceSpaces (s : String) : String :=
  String.mk (s.data.map (fun c => if c = ' ' then '_' else c))

/-- UTF-8 encoding of one character as its byte sequence; each byte is
truncated to 8 bits with `% 256` (the values are already below 256). -/
def utf8Bytes (c : Char) : List Nat :=
  let n := c.toNat
  if n < 128 then [n % 256]
  else if n < 2048 then
    [(192 ||| (n >>> 6)) % 256, (128 ||| (n &&& 63)) % 256]
  else if n < 65536 then
    [(224 ||| (n >>> 12)) % 256, (128 ||| ((n >>> 6) &&& 63)) % 256,
     (128 ||| (n &&& 63)) % 256]
  else
    [(240 ||| (n >>> 18)) % 256, (128 ||| ((n >>> 12) &&& 63)) % 256,
     (128 ||| ((n >>> 6) &&& 63)) % 256, (128 ||| (n &&& 63)) % 256]

/-- Upper-case hexadecimal digit, as Go `net/url` uses `"0123456789ABCDEF"`. -/
def hexUpper (n : Nat) : Char :=
  if n < 10 then Char.ofNat (48 + n) else Char.ofNat (55 + n)

/-- Go `net/url.shouldEscape` for `encodeQueryComponent`: bytes kept
verbatim by `url.QueryEscape` (alphanumerics and `-_.~`). -/
def isUnreservedByte (b : Nat) : Bool :=
  (65 ≤ b && b ≤ 90) || (97 ≤ b && b ≤ 122) || (48 ≤ b && b ≤ 57) ||
  b = 45 || b = 95 || b = 46 || b = 126

/-- How `url.QueryEscape` renders one byte: unreserved bytes verbatim,
space as `+`, anything else as `%XX` with upper-case hex. -/
def escapeByte (b : Nat) : List Char :=
  if isUnreservedByte b then [Char.ofNat b]
  else if b = 32 then ['+']
  else ['%', hexUpper (b / 16), hexUpper (b % 16)]

/-- Character-list form of Go `url.QueryEscape`: UTF-8 encode, then
escape byte by byte. -/
def queryEscapeChars (cs : List Char) : List Char :=
  (cs.flatMap utf8Bytes).flatMap escapeByte

/-- Go `url.QueryEscape`. -/
def queryEscape (s : String) : String :=
  String.mk (queryEscapeChars s.data)

/-- Go `CanonicalizeTitle`: lower-case, spaces to underscores, then
percent-encode (`wikikit.go` lines 62-67). -/
def canonicalizeTitle (title : String) : String :=
  queryEscape (replaceSpaces (goToLower title))

/-- Checks that `ps` is a literal leading pattern of `cs`, returning the
remainder on success. -/
def stripPre : List Char → List Char → Option (List Char)
  | [], cs => some cs
  | _ :: _, [] => none
  | p :: ps, c :: cs => if c = p then stripPre ps cs else none

/-- The seven excluded namespace markers of the filter regexp
`^file:.*|^talk:.*|^special:.*|^wikipedia:.*|^wiktionary:.*|^user:.*|^user_talk:.*`. -/
def nsMarkers : List (List Char) :=
  [String.data "file:", String.data "talk:", String.data "special:",
   String.data "wikipedia:", String.data "wiktionary:",
   String.data "user:", String.data "user_talk:"]

/-- Go `filter.MatchString`: the alternatives are each anchored with `^`,
so the regexp matches iff the string starts with one of the markers. -/
def filterMatch (s : String) : Bool :=
  nsMarkers.any (fun pre => (stripPre pre s.data).isSome)

/-- A decoded page record (`Page` in the Go sources): title, derived
canonical title (empty until a worker assigns it), redirect title
(empty iff not a redirect), and raw body text. -/
structure Page where
  title : String
  canonicalTitle : String
  redirTitle : String
  text : String
  deriving DecidableEq, Repr

/-- The eligibility test evaluated by every strategy
(`!m && p.Redir.Title == ""` after `p.CanonicalTitle = CanonicalizeTitle(p.Title)`). -/
def eligible (p : Page) : Bool :=
  !(filterMatch (canonicalizeTitle p.title)) && p.redirTitle == ""

example : canonicalizeTitle "Apollo 11" = "apollo_11" := by decide
example : canonicalizeTitle "File:Example" = "file%3Aexample" := by decide
example : filterMatch "file:x" = true := by decide
example : filterMatch "file%3Ax" = false := by decide

/-- ASCII whitespace trimmed by Go `strings.TrimSpace`
(space, tab, newline, vertical tab, form feed, carriage return). -/
def goIsSpace (c : Char) : Bool :=
  c = ' ' || c = '\t' || c = '\n' || c = Char.ofNat 11 || c = Char.ofNat 12 || c = '\r'

/-- Go `strings.TrimSpace` on a character list. -/
def goTrim (cs : List Char) : List Char :=
  ((cs.dropWhile goIsSpace).reverse.dropWhile goIsSpace).reverse

/-- Go `strings.Replace(s, "\t", "", -1)`: delete every tab. -/
def stripTabs (s : String) : String :=
  String.mk (s.data.filter (fun c => c ≠ '\t'))

/-- One attempted match of the category regexp
`\[\[<marker>:([^\[]+)\]\]` at the head of `cs` (markers are literal
text, as supplied by the `-c` flag).  Following leftmost-first greedy
semantics, the capture `[^\[]+` extends to the last position `k ≥ 1`
inside the bracket-free run that is followed by `]]`.  Returns the
capture and the remainder after the whole match. -/
def tryCatAt (marker : List Char) (cs : List Char) : Option (List Char × List Char) :=
  match stripPre ('[' :: '[' :: (marker ++ [':'])) cs with
  | none => none
  | some rest =>
    let run := rest.takeWhile (fun c => c ≠ '[')
    let ks := (List.range run.length).filter
      (fun k => decide (1 ≤ k) && (run.get? k == some ']') && (run.get? (k + 1) == some ']'))
    match ks.getLast? with
    | none => none
    | some k => some (run.take k, rest.drop (k + 2))

/-- Scan for all non-overlapping leftmost matches of the category
regexp, as Go `FindAllStringSubmatch(text, -1)`: resume after each
match, otherwise slide one character. -/
def catScan (marker : List Char) : Nat → List Char → List (List Char)
  | 0, _ => []
  | fuel + 1, cs =>
    match tryCatAt marker cs with
    | some (cap, rest) => cap :: catScan marker fuel rest
    | none =>
      match cs with
      | [] => []
      | _ :: cs' => catScan marker fuel cs'

/-- All captures of `\[\[<marker>:([^\[]+)\]\]` in `text`. -/
def categoryMatches (marker : String) (text : String) : List (List Char) :=
  catScan marker.data (text.data.length + 1) text.data

/-- Case-insensitive literal pattern match: checks that lowering `cs`
char by char begins with the (already lowered) pattern `pat`, returning
the remainder. -/
def lowerEqList : List Char → List Char → Option (List Char)
  | [], cs => some cs
  | _ :: _, [] => none
  | p :: ps, c :: cs => if goToLowerChar c = p then lowerEqList ps cs else none

/-- One attempted match of the authority regexp
`(?mi){{<marker>[^}]*}}` at the head of `cs`: case-insensitive literal
`{{<marker>`, then a maximal run of non-`}` characters, then `}}`.
Returns the original matched span. -/
def tryAuthAt (markerLower : List Char) (cs : List Char) : Option (List Char) :=
  match lowerEqList ('{' :: '{' :: markerLower) cs with
  | none => none
  | some rest =>
    let run := rest.takeWhile (fun c => c ≠ '}')
    match rest.get? run.length, rest.get? (run.length + 1) with
    | some c1, some c2 =>
      if c1 = '}' ∧ c2 = '}' then
        some (cs.take (2 + markerLower.length + run.length + 2))
      else none
    | _, _ => none

/-- Leftmost match of the authority regexp, as Go `FindString`. -/
def authFind (markerLower : List Char) : Nat → List Char → Option (List Char)
  | 0, _ => none
  | fuel + 1, cs =>
    match tryAuthAt markerLower cs with
    | some m => some m
    | none =>
      match cs with
      | [] => none
      | _ :: cs' => authFind markerLower fuel cs'

example :
    categoryMatches "Category" "[[Category:Science|Main]] and [[Category:Art]]" =
      [String.data "Science|Main", String.data "Art"] := by decide

example :
    (authFind (String.data "authority control") 100
      (String.data "see {{Authority control|VIAF=123}} end")).map String.mk =
      some "{{Authority control|VIAF=123}}" := by decide

/-- Generic JSON value as Go `encoding/json` decodes into `interface` with
`dec.UseNumber()`: numbers keep their lexical text (`json.Number`),
objects keep their fields (Go stores them in a map; field order is
irrelevant because `json.Marshal` sorts map keys). -/
inductive Json where
  | null : Json
  | bool (b : Bool) : Json
  | num (lex : String) : Json
  | str (s : String) : Json
  | arr (xs : List Json) : Json
  | obj (fields : List (String × Json)) : Json

/-- JSON insignificant whitespace (space, tab, newline, carriage return). -/
def isJsonWs (c : Char) : Bool :=
  c = ' ' || c = '\t' || c = '\n' || c = '\r'

/-- Drop leading JSON whitespace. -/
def skipWs : List Char → List Char
  | [] => []
  | c :: cs => if isJsonWs c then skipWs cs else c :: cs

/-- Value of one hexadecimal digit. -/
def hexVal (c : Char) : Option Nat :=
  if 48 ≤ c.toNat ∧ c.toNat ≤ 57 then some (c.toNat - 48)
  else if 97 ≤ c.toNat ∧ c.toNat ≤ 102 then some (c.toNat - 87)
  else if 65 ≤ c.toNat ∧ c.toNat ≤ 70 then some (c.toNat - 55)
  else none

/-- Read four hexadecimal digits. -/
def parseHex4 : List Char → Option (Nat × List Char)
  | c1 :: c2 :: c3 :: c4 :: rest =>
    match hexVal c1, hexVal c2, hexVal c3, hexVal c4 with
    | some h1, some h2, some h3, some h4 =>
      some (((h1 * 16 + h2) * 16 + h3) * 16 + h4, rest)
    | _, _, _, _ => none
  | _ => none

/-- The Unicode replacement character Go writes for unpaired surrogates. -/
def replChar : Char := Char.ofNat 65533

/-- Body of a JSON string literal after the opening quote, following
Go `encoding/json` unquoting: standard escapes, `\uXXXX` with surrogate
pairing (unpaired surrogates become the replacement character), raw
control characters rejected. -/
def parseStrBody : Nat → List Char → List Char → Except String (String × List Char)
  | 0, _, _ => .error "string too long"
  | fuel + 1, cs, acc =>
    match cs with
    | [] => .error "unexpected end of JSON input"
    | '"' :: rest => .ok (String.mk acc.reverse, rest)
    | '\\' :: rest =>
      match rest with
      | [] => .error "unexpected end of JSON input"
      | 'u' :: r2 =>
        match parseHex4 r2 with
        | none => .error "invalid character in \\u hexadecimal character escape"
        | some (h, r3) =>
          if 55296 ≤ h ∧ h ≤ 56319 then
            match r3 with
            | '\\' :: 'u' :: r4 =>
              match parseHex4 r4 with
              | some (l, r5) =>
                if 56320 ≤ l ∧ l ≤ 57343 then
                  parseStrBody fuel r5
                    (Char.ofNat (65536 + (h - 55296) * 1024 + (l - 56320)) :: acc)
                else parseStrBody fuel r3 (replChar :: acc)
              | none => parseStrBody fuel r3 (replChar :: acc)
            | _ => parseStrBody fuel r3 (replChar :: acc)
          else if 56320 ≤ h ∧ h ≤ 57343 then parseStrBody fuel r3 (replChar :: acc)
          else parseStrBody fuel r3 (Char.ofNat h :: acc)
      | c :: r2 =>
        if c = '"' then parseStrBody fuel r2 ('"' :: acc)
        else if c = '\\' then parseStrBody fuel r2 ('\\' :: acc)
        else if c = '/' then parseStrBody fuel r2 ('/' :: acc)
        else if c = 'b' then parseStrBody fuel r2 (Char.ofNat 8 :: acc)
        else if c = 'f' then parseStrBody fuel r2 (Char.ofNat 12 :: acc)
        else if c = 'n' then parseStrBody fuel r2 ('\n' :: acc)
        else if c = 'r' then parseStrBody fuel r2 ('\r' :: acc)
        else if c = 't' then parseStrBody fuel r2 ('\t' :: acc)
        else .error "invalid character in string escape code"
    | c :: rest =>
      if c.toNat < 32 then .error "invalid character in string literal"
      else parseStrBody fuel rest (c :: acc)

/-- JSON number literal: optional minus, integer part without leading
zeros, optional fraction, optional exponent.  Returns the lexical text
(kept verbatim by `dec.UseNumber()`) and the remainder. -/
def parseNum (cs : List Char) : Except String (String × List Char) :=
  let start : List Char × List Char :=
    match cs with
    | '-' :: r => (['-'], r)
    | _ => ([], cs)
  match start.2 with
  | '0' :: r =>
    let intPart := start.1 ++ ['0']
    let afterFrac : Except String (List Char × List Char) :=
      match r with
      | '.' :: r2 =>
        let ds := r2.takeWhile Char.isDigit
        if ds.isEmpty then .error "invalid character after decimal point in numeric literal"
        else .ok (intPart ++ '.' :: ds, r2.drop ds.length)
      | _ => .ok (intPart, r)
    match afterFrac with
    | .error e => .error e
    | .ok (lex1, r3) =>
      match r3 with
      | c :: r4 =>
        if c = 'e' ∨ c = 'E' then
          let signPart : List Char × List Char :=
            match r4 with
            | '+' :: r5 => (['+'], r5)
            | '-' :: r5 => (['-'], r5)
            | _ => ([], r4)
          let ds := signPart.2.takeWhile Char.isDigit
          if ds.isEmpty then .error "invalid character in exponent of numeric literal"
          else .ok (String.mk (lex1 ++ c :: signPart.1 ++ ds), signPart.2.drop ds.length)
        else .ok (String.mk lex1, r3)
      | [] => .ok (String.mk lex1, [])
  | c :: r =>
    if c.isDigit then
      let ds := r.takeWhile Char.isDigit
      let intPart := start.1 ++ c :: ds
      let r1 := r.drop ds.length
      let afterFrac : Except String (List Char × List Char) :=
        match r1 with
        | '.' :: r2 =>
          let fs := r2.takeWhile Char.isDigit
          if fs.isEmpty then .error "invalid character after decimal point in numeric literal"
          else .ok (intPart ++ '.' :: fs, r2.drop fs.length)
        | _ => .ok (intPart, r1)
      match afterFrac with
      | .error e => .error e
      | .ok (lex1, r3) =>
        match r3 with
        | e :: r4 =>
          if e = 'e' ∨ e = 'E' then
            let signPart : List Char × List Char :=
              match r4 with
              | '+' :: r5 => (['+'], r5)
              | '-' :: r5 => (['-'], r5)
              | _ => ([], r4)
            let ds2 := signPart.2.takeWhile Char.isDigit
            if ds2.isEmpty then .error "invalid character in exponent of numeric literal"
            else .ok (String.mk (lex1 ++ e :: signPart.1 ++ ds2), signPart.2.drop ds2.length)
          else .ok (String.mk lex1, r3)
        | [] => .ok (String.mk lex1, [])
    else .error "invalid numeric literal"
  | [] => .error "unexpected end of JSON input"

mutual

/-- Parse one JSON value, as Go `json.Decoder.Decode` reads a single
value (trailing input is left unread).  `fuel` bounds the recursion and
is chosen large enough for the whole input. -/
def parseVal : Nat → List Char → Except String (Json × List Char)
  | 0, _ => .error "exceeded max depth"
  | fuel + 1, cs =>
    match skipWs cs with
    | [] => .error "unexpected end of JSON input"
    | c :: rest =>
      if c = '"' then
        match parseStrBody (rest.length + 1) rest [] with
        | .ok (s, r) => .ok (Json.str s, r)
        | .error e => .error e
      else if c = '{' then parseObjBody fuel rest
      else if c = '[' then parseArrBody fuel rest
      else if c = 't' then
        match stripPre (String.data "rue") rest with
        | some r => .ok (Json.bool true, r)
        | none => .error "invalid character in literal true"
      else if c = 'f' then
        match stripPre (String.data "alse") rest with
        | some r => .ok (Json.bool false, r)
        | none => .error "invalid character in literal false"
      else if c = 'n' then
        match stripPre (String.data "ull") rest with
        | some r => .ok (Json.null, r)
        | none => .error "invalid character in literal null"
      else if c = '-' ∨ c.isDigit then
        match parseNum (c :: rest) with
        | .ok (s, r) => .ok (Json.num s, r)
        | .error e => .error e
      else .error "invalid character looking for beginning of value"

/-- Object body after the opening brace. -/
def parseObjBody : Nat → List Char → Except String (Json × List Char)
  | 0, _ => .error "exceeded max depth"
  | fuel + 1, cs =>
    match skipWs cs with
    | '}' :: r => .ok (Json.obj [], r)
    | cs' => parseFields fuel cs' []

/-- Fields of an object: string key, colon, value, then comma or the
closing brace. -/
def parseFields : Nat → List Char → List (String × Json) → Except String (Json × List Char)
  | 0, _, _ => .error "exceeded max depth"
  | fuel + 1, cs, acc =>
    match skipWs cs with
    | [] => .error "unexpected end of JSON input"
    | '"' :: r =>
      match parseStrBody (r.length + 1) r [] with
      | .error e => .error e
      | .ok (k, r2) =>
        match skipWs r2 with
        | ':' :: r3 =>
          match parseVal fuel r3 with
          | .error e => .error e
          | .ok (v, r4) =>
            match skipWs r4 with
            | ',' :: r5 => parseFields fuel r5 ((k, v) :: acc)
            | '}' :: r5 => .ok (Json.obj ((k, v) :: acc).reverse, r5)
            | _ => .error "invalid character after object key:value pair"
        | _ => .error "invalid character after object key"
    | _ => .error "invalid character looking for beginning of object key string"

/-- Array body after the opening bracket. -/
def parseArrBody : Nat → List Char → Except String (Json × List Char)
  | 0, _ => .error "exceeded max depth"
  | fuel + 1, cs =>
    match skipWs cs with
    | ']' :: r => .ok (Json.arr [], r)
    | cs' => parseItems fuel cs' []

/-- Elements of an array: value, then comma or the closing bracket. -/
def parseItems : Nat → List Char → List Json → Except String (Json × List Char)
  | 0, _, _ => .error "exceeded max depth"
  | fuel + 1, cs, acc =>
    match parseVal fuel cs with
    | .error e => .error e
    | .ok (v, r) =>
      match skipWs r with
      | ',' :: r2 => parseItems fuel r2 (v :: acc)
      | ']' :: r2 => .ok (Json.arr (v :: acc).reverse, r2)
      | _ => .error "invalid character after array element"

end

/-- Result of `dec.Decode(&container)` on a record body: `io.EOF` when
the input holds no value at all (empty or all-whitespace body), a
decode error, or a parsed value. -/
inductive DecodeRes where
  | eof : DecodeRes
  | err (msg : String) : DecodeRes
  | ok (v : Json) : DecodeRes

/-- Go `json.NewDecoder(strings.NewReader(text))` with `UseNumber`
followed by one `Decode` call. -/
def jsonDecode (s : String) : DecodeRes :=
  match skipWs s.data with
  | [] => DecodeRes.eof
  | cs =>
    match parseVal (4 * (cs.length + 1)) cs with
    | .ok (v, _) => DecodeRes.ok v
    | .error e => DecodeRes.err e

/-- Lower-case hexadecimal digit, as Go `encoding/json` uses for `\u00xx`. -/
def hexLower (n : Nat) : Char :=
  if n < 10 then Char.ofNat (48 + n) else Char.ofNat (87 + n)

/-- How Go `json.Marshal` escapes one character inside a string:
quote, backslash, the common control escapes, other control characters
as `\u00xx`, and (HTML-safe by default) angle brackets and ampersand as
`\u00XX`, plus U+2028/U+2029. -/
def quoteChar (c : Char) : List Char :=
  if c = '"' then ['\\', '"']
  else if c = '\\' then ['\\', '\\']
  else if c = '\n' then ['\\', 'n']
  else if c = '\r' then ['\\', 'r']
  else if c = '\t' then ['\\', 't']
  else if c.toNat < 32 then
    ['\\', 'u', '0', '0', hexLower (c.toNat / 16), hexLower (c.toNat % 16)]
  else if c = '<' then ['\\', 'u', '0', '0', '3', 'c']
  else if c = '>' then ['\\', 'u', '0', '0', '3', 'e']
  else if c = '&' then ['\\', 'u', '0', '0', '2', '6']
  else if c.toNat = 8232 then ['\\', 'u', '2', '0', '2', '8']
  else if c.toNat = 8233 then ['\\', 'u', '2', '0', '2', '9']
  else [c]

/-- Go `json.Marshal` of a string value. -/
def goQuote (s : String) : String :=
  "\"" ++ String.mk (s.data.flatMap quoteChar) ++ "\""

/-- Last-wins key deduplication: a Go map keeps only the final value
stored under a key, so earlier duplicates are dropped. -/
def dedupKeys : List (String × String) → List (String × String)
  | [] => []
  | kv :: rest =>
    if (rest.map Prod.fst).contains kv.1 then dedupKeys rest
    else kv :: dedupKeys rest

/-- Lexicographic order on character lists by code point; on UTF-8
encoded text this is exactly Go's byte-wise string order used by
`sort.Strings`. -/
def charListLt : List Char → List Char → Bool
  | [], [] => false
  | [], _ :: _ => true
  | _ :: _, [] => false
  | a :: as, b :: bs =>
    if a.toNat < b.toNat then true
    else if b.toNat < a.toNat then false
    else charListLt as bs

/-- Go string order on keys. -/
def keyLt (a b : String) : Bool := charListLt a.data b.data

/-- Insertion into a key-sorted association list. -/
def insertByKey (a : String × String) : List (String × String) → List (String × String)
  | [] => [a]
  | b :: bs => if keyLt a.1 b.1 then a :: b :: bs else b :: insertByKey a bs

/-- Sort rendered fields by key, as Go `json.Marshal` sorts map keys. -/
def sortByKey (l : List (String × String)) : List (String × String) :=
  l.foldr insertByKey []

/-- Assemble a rendered object from rendered fields: deduplicate
(last wins, as a Go map would), sort by key, then join. -/
def renderObj (fs : List (String × String)) : String :=
  "\x7b" ++
    String.intercalate ","
      ((sortByKey (dedupKeys fs)).map (fun kv => goQuote kv.1 ++ ":" ++ kv.2)) ++
  "\x7d"

mutual

/-- Go `json.Marshal` of a generic decoded value: `json.Number` keeps
its lexical text verbatim, maps print their keys sorted.  `fuel` bounds
the total size of the value and is always instantiated above the size
of the value being rendered (values decoded from a body of `n`
characters have fewer than `n` constructors). -/
def mJson : Nat → Json → String
  | 0, _ => ""
  | _ + 1, Json.null => "null"
  | _ + 1, Json.bool true => "true"
  | _ + 1, Json.bool false => "false"
  | _ + 1, Json.num s => s
  | _ + 1, Json.str s => goQuote s
  | fuel + 1, Json.arr xs => "[" ++ String.intercalate "," (mList fuel xs) ++ "]"
  | fuel + 1, Json.obj fs => renderObj (mFields fuel fs)
termination_by structural fuel => fuel

/-- Render each element of an array. -/
def mList : Nat → List Json → List String
  | 0, _ => []
  | _ + 1, [] => []
  | fuel + 1, x :: xs => mJson fuel x :: mList fuel xs
termination_by structural fuel => fuel

/-- Render each field value of an object. -/
def mFields : Nat → List (String × Json) → List (String × String)
  | 0, _ => []
  | _ + 1, [] => []
  | fuel + 1, kv :: fs => (kv.1, mJson fuel kv.2) :: mFields fuel fs
termination_by structural fuel => fuel

end

example : mJson 9 (Json.obj [("num", Json.num "123456789012345"), ("id", Json.str "Q1")]) =
    "\x7b\"id\":\"Q1\",\"num\":123456789012345\x7d" := by decide

/-- Go `json.Marshal(p)` for a `Page` (the Vanilla strategy): struct
fields in declaration order, per the `json:` tags. -/
def marshalPage (p : Page) : String :=
  "\x7b\"title\":" ++ goQuote p.title ++ ",\"ctitle\":" ++ goQuote p.canonicalTitle ++
    ",\"redirect\":\x7b\"title\":" ++ goQuote p.redirTitle ++ "\x7d,\"text\":" ++
    goQuote p.text ++ "\x7d"

/-- Go `json.Marshal(parsed)` for a `WikidataPage` envelope: struct
fields in declaration order, with the decoded generic `content` value.
The marshalling fuel `p.text.length + 1` exceeds the constructor count
of any value decoded from `p.text`. -/
def marshalWikidata (p : Page) (v : Json) : String :=
  "\x7b\"title\":" ++ goQuote p.title ++ ",\"ctitle\":" ++ goQuote p.canonicalTitle ++
    ",\"redirect\":\x7b\"title\":" ++ goQuote p.redirTitle ++ "\x7d,\"content\":" ++
    mJson (p.text.data.length + 1) v ++ "\x7d"

/-- Result of one iteration of a worker loop body on a received page:
either the worker continues with the next record, having produced output
lines and error-stream diagnostics, or it exits the loop (the
`break` on `io.EOF` in `WikidataEncoder`). -/
inductive StepRes where
  | cont (outs : List String) (diags : List String) : StepRes
  | exit : StepRes
  deriving DecidableEq, Repr

/-- Output lines of a step. -/
def outsOf : StepRes → List String
  | StepRes.cont os _ => os
  | StepRes.exit => []

/-- Category line construction: trim the capture, keep only the part
before the first pipe, and join with the title by a tab. -/
def mkCategoryLine (title : String) (cap : List Char) : String :=
  title ++ "\t" ++ String.mk ((goTrim cap).takeWhile (fun c => c ≠ '|'))

/-- Loop body of `CategoryExtractor` (part_001 lines 245-281): set the
canonical title, filter, then one line per category capture. -/
def stepCat (marker : String) (p : Page) : StepRes :=
  if !(filterMatch (canonicalizeTitle p.title)) && p.redirTitle == "" then
    StepRes.cont ((categoryMatches marker p.text).map (mkCategoryLine p.title)) []
  else StepRes.cont [] []

/-- Loop body of `AuthorityDataExtractor` (part_001 lines 284-316):
`FindString`, and if the result is non-empty, strip tabs and emit one line. -/
def stepAuth (marker : String) (p : Page) : StepRes :=
  if !(filterMatch (canonicalizeTitle p.title)) && p.redirTitle == "" then
    let result : String :=
      match authFind (marker.data.map goToLowerChar) (p.text.data.length + 1) p.text.data with
      | some span => String.mk span
      | none => ""
    if result == "" then StepRes.cont [] []
    else StepRes.cont [p.title ++ "\t" ++ stripTabs result] []
  else StepRes.cont [] []

/-- Loop body of `WikidataEncoder` (part_001 lines 319-367): decode the
body; `io.EOF` breaks the worker loop, any other decode error prints a
diagnostic and continues; otherwise emit the marshalled envelope. -/
def stepWiki (p : Page) : StepRes :=
  if !(filterMatch (canonicalizeTitle p.title)) && p.redirTitle == "" then
    match jsonDecode p.text with
    | DecodeRes.eof => StepRes.exit
    | DecodeRes.err e => StepRes.cont [] [e]
    | DecodeRes.ok v =>
      StepRes.cont [marshalWikidata { p with canonicalTitle := canonicalizeTitle p.title } v] []
  else StepRes.cont [] []

/-- Loop body of `VanillaConverter` (part_001 lines 370-398): marshal
the whole page (marshalling a `Page` cannot fail). -/
def stepVanilla (p : Page) : StepRes :=
  if !(filterMatch (canonicalizeTitle p.title)) && p.redirTitle == "" then
    StepRes.cont [marshalPage { p with canonicalTitle := canonicalizeTitle p.title }] []
  else StepRes.cont [] []

/-- A worker loop run over the sequence of messages it receives from the
intake (`some page` or the `nil` sentinel), returning the output lines
sent to the outtake, the diagnostics written to the error stream, and
the number of acknowledgments sent on the ack channel.  The loop stops
at the first sentinel or at a `StepRes.exit`; if the message list ends
without either, the worker is still blocked on the intake and has not
acknowledged. -/
def workerRun (step : Page → StepRes) : List (Option Page) → List String × List String × Nat
  | [] => ([], [], 0)
  | none :: _ => ([], [], 1)
  | some p :: rest =>
    match step p with
    | StepRes.exit => ([], [], 1)
    | StepRes.cont os ds =>
      let r := workerRun step rest
      (os ++ r.1, ds ++ r.2.1, r.2.2)

example :
    stepCat "Category"
      { title := "title", canonicalTitle := "", redirTitle := "",
        text := "[[Category:Science|Main]] and [[Category:Art]]" } =
      StepRes.cont ["title\tScience", "title\tArt"] [] := by decide

example :
    stepWiki
      { title := "title", canonicalTitle := "", redirTitle := "",
        text := "\x7b\"id\":\"Q1\",\"num\":123456789012345\x7d" } =
      StepRes.cont
        ["\x7b\"title\":\"title\",\"ctitle\":\"title\",\"redirect\":\x7b\"title\":\"\"\x7d,\"content\":\x7b\"id\":\"Q1\",\"num\":123456789012345\x7d\x7d"]
        [] := by decide

example :
    stepWiki { title := "t", canonicalTitle := "", redirTitle := "", text := "  " } =
      StepRes.exit := by decide

example :
    stepWiki { title := "t", canonicalTitle := "", redirTitle := "", text := "\x7b" } =
      StepRes.cont [] ["unexpected end of JSON input"] := by decide

/-- Phase of the main goroutine (decoder + shutdown coordinator,
part_001 lines 519-551): streaming records into the intake, pushing the
`k`-th of `N` nil sentinels, waiting for the `k`-th of `N`
acknowledgments, or finished (outtake closed). -/
inductive CoordPhase where
  | feeding : CoordPhase
  | sending (k : Nat) : CoordPhase
  | awaiting (k : Nat) : CoordPhase
  | closed : CoordPhase
  deriving DecidableEq, Repr

/-- State of one worker goroutine: blocked receiving on the intake,
forwarding the remaining output lines of the current record to the
outtake, blocked sending its completion acknowledgment, or returned. -/
inductive WStat where
  | idle : WStat
  | emitting (ls : List String) : WStat
  | acking : WStat
  | done : WStat
  deriving DecidableEq, Repr

/-- A configuration of the pipeline: records not yet offered to the
intake, the coordinator phase, the worker states, and the lines the
collector has received so far (in arrival order). -/
structure Config where
  recs : List Page
  coord : CoordPhase
  workers : List WStat
  sink : List String
  deriving DecidableEq, Repr

/-- The worker state right after receiving page `p`: start forwarding
the step's output lines, or (Wikidata `io.EOF`) break out of the loop
and block on the ack send. -/
def feedStat : StepRes → WStat
  | StepRes.cont ls _ => WStat.emitting ls
  | StepRes.exit => WStat.acking

/-- One interleaving action: a rendezvous or local step of some task.
`feed i` delivers the next record to worker `i`; `startShutdown` is the
decoder loop ending; `sentinel i` delivers a nil to worker `i`;
`emit i` is worker `i` sending one line to the collector; `finish i` is
worker `i` returning to the intake receive; `ack i` is the coordinator
receiving worker `i`'s acknowledgment. -/
inductive Act where
  | feed (i : Nat) : Act
  | startShutdown : Act
  | sentinel (i : Nat) : Act
  | emit (i : Nat) : Act
  | finish (i : Nat) : Act
  | ack (i : Nat) : Act
  deriving DecidableEq, Repr

/-- Small-step semantics of the pipeline for a fixed strategy `step`:
`none` when the action is not enabled in `c`. -/
def applyAct (step : Page → StepRes) (c : Config) : Act → Option Config
  | Act.feed i =>
    match c.coord, c.recs, c.workers.get? i with
    | CoordPhase.feeding, p :: rs, some WStat.idle =>
      some { c with recs := rs, workers := c.workers.set i (feedStat (step p)) }
    | _, _, _ => none
  | Act.startShutdown =>
    match c.coord, c.recs with
    | CoordPhase.feeding, [] =>
      some { c with
              coord :=
                if c.workers.length = 0 then CoordPhase.closed
                else CoordPhase.sending 0 }
    | _, _ => none
  | Act.sentinel i =>
    match c.coord, c.workers.get? i with
    | CoordPhase.sending k, some WStat.idle =>
      some { c with
              workers := c.workers.set i WStat.acking,
              coord :=
                if k + 1 = c.workers.length then CoordPhase.awaiting 0
                else CoordPhase.sending (k + 1) }
    | _, _ => none
  | Act.emit i =>
    match c.workers.get? i with
    | some (WStat.emitting (l :: ls)) =>
      some { c with workers := c.workers.set i (WStat.emitting ls), sink := c.sink ++ [l] }
    | _ => none
  | Act.finish i =>
    match c.workers.get? i with
    | some (WStat.emitting []) =>
      some { c with workers := c.workers.set i WStat.idle }
    | _ => none
  | Act.ack i =>
    match c.coord, c.workers.get? i with
    | CoordPhase.awaiting k, some WStat.acking =>
      some { c with
              workers := c.workers.set i WStat.done,
              coord :=
                if k + 1 = c.workers.length then CoordPhase.closed
                else CoordPhase.awaiting (k + 1) }
    | _, _ => none

/-- Run a whole interleaving; `none` as soon as an action is not enabled. -/
def runActs (step : Page → StepRes) : Config → List Act → Option Config
  | c, [] => some c
  | c, a :: as =>
    match applyAct step c a with
    | some c' => runActs step c' as
    | none => none

/-- The starting configuration: all records pending, decoder feeding,
`n` workers blocked on the intake, empty sink. -/
def initConfig (recs : List Page) (n : Nat) : Config :=
  { recs := recs, coord := CoordPhase.feeding,
    workers := List.replicate n WStat.idle, sink := [] }

/-- Lines a worker still has to forward for its current record. -/
def pendingOf : WStat → List String
  | WStat.emitting ls => ls
  | _ => []

/-- Worker predicate: has received a sentinel or exited early
(`acking`) or returned (`done`). -/
def stoppedB : WStat → Bool
  | WStat.acking => true
  | WStat.done => true
  | _ => false

/-- Worker predicate: has returned. -/
def doneB : WStat → Bool
  | WStat.done => true
  | _ => false

/-- Number of workers whose acknowledgment the coordinator has received. -/
def countDone (ws : List WStat) : Nat := ws.countP doneB

/-- Number of workers that have stopped consuming the intake. -/
def countStopped (ws : List WStat) : Nat := ws.countP stoppedB

/-- How many acknowledgments the coordinator has received in this phase. -/
def acksRecvd (n : Nat) : CoordPhase → Nat
  | CoordPhase.awaiting k => k
  | CoordPhase.closed => n
  | _ => 0

/-- How many workers must have stopped consuming in this phase (with no
early exits, exactly the sentinels delivered so far). -/
def stopTarget (n : Nat) : CoordPhase → Nat
  | CoordPhase.feeding => 0
  | CoordPhase.sending k => k
  | CoordPhase.awaiting _ => n
  | CoordPhase.closed => n

/-- The multiset of all output lines the selected strategy produces for
a record list — the reference result, independent of worker count. -/
def expectedLines (step : Page → StepRes) (recs : List Page) : Multiset String :=
  (recs.flatMap (fun p => outsOf (step p)) : List String)

/-- Termination measure: every enabled action strictly decreases it. -/
def wWeight : WStat → Nat
  | WStat.idle => 2
  | WStat.emitting ls => 3 + ls.length
  | WStat.acking => 1
  | WStat.done => 0

/-- Coordinator component of the termination measure. -/
def coordWeight : CoordPhase → Nat
  | CoordPhase.feeding => 2
  | CoordPhase.sending _ => 1
  | CoordPhase.awaiting _ => 1
  | CoordPhase.closed => 0

/-- Full termination measure of a configuration. -/
def confMeasure (step : Page → StepRes) (c : Config) : Nat :=
  (c.recs.map (fun p => 4 + (outsOf (step p)).length)).sum +
    (c.workers.map wWeight).sum + coordWeight c.coord

example :
    runActs stepVanilla
      (initConfig [{ title := "a", canonicalTitle := "", redirTitle := "", text := "x" }] 1)
      [Act.feed 0, Act.emit 0, Act.finish 0, Act.startShutdown, Act.sentinel 0, Act.ack 0] =
    some
      { recs := [], coord := CoordPhase.closed, workers := [WStat.done],
        sink := ["\x7b\"title\":\"a\",\"ctitle\":\"a\",\"redirect\":\x7b\"title\":\"\"\x7d,\"text\":\"x\"\x7d"] } := by
  decide

theorem countP_set_eq {α : Type} (p : α → Bool) :
    ∀ (l : List α) (i : Nat) (x y : α), l.get? i = some x →
      List.countP p (l.set i y) + (if p x then 1 else 0) =
        List.countP p l + (if p y then 1 else 0)
  | [], i, x, y, h => by cases h
  | a :: l, 0, x, y, h => by
    cases h
    simp only [List.set, List.countP_cons]
    cases hx : p a <;> cases hy : p y <;>
      simp only [hx, hy, if_true, if_false] <;> omega
  | a :: l, i + 1, x, y, h => by
    have ih := countP_set_eq p l i x y h
    simp only [List.set, List.countP_cons]
    omega

theorem sum_map_set {α : Type} (f : α → Nat) :
    ∀ (l : List α) (i : Nat) (x y : α), l.get? i = some x →
      ((l.set i y).map f).sum + f x = (l.map f).sum + f y
  | [], i, x, y, h => by cases h
  | a :: l, 0, x, y, h => by
    cases h
    simp only [List.set, List.map_cons, List.sum_cons]
    omega
  | a :: l, i + 1, x, y, h => by
    have ih := sum_map_set f l i x y h
    simp only [List.set, List.map_cons, List.sum_cons]
    omega

theorem coeAppendMS {β : Type} (u v : List β) : (↑(u ++ v) : Multiset β) = ↑u + ↑v := by
  simp

theorem flatMapMS_set {α β : Type} (f : α → List β) :
    ∀ (l : List α) (i : Nat) (x y : α), l.get? i = some x →
      (↑((l.set i y).flatMap f) : Multiset β) + ↑(f x) =
        (↑(l.flatMap f) : Multiset β) + ↑(f y)
  | [], i, x, y, h => by cases h
  | a :: l, 0, x, y, h => by
    cases h
    simp only [List.set, List.flatMap_cons]
    rw [coeAppendMS, coeAppendMS]
    ac_rfl
  | a :: l, i + 1, x, y, h => by
    have ih := flatMapMS_set f l i x y h
    simp only [List.set, List.flatMap_cons]
    rw [coeAppendMS, coeAppendMS, add_assoc, add_assoc, ih]

theorem pendingOf_feedStat (r : StepRes) : pendingOf (feedStat r) = outsOf r := by
  cases r <;> rfl

theorem doneB_feedStat (r : StepRes) : doneB (feedStat r) = false := by
  cases r <;> rfl

theorem countP_replicate_false {α : Type} (p : α → Bool) (a : α) (h : p a = false) :
    ∀ n, List.countP p (List.replicate n a) = 0
  | 0 => rfl
  | n + 1 => by
    simp [List.replicate, List.countP_cons, h, countP_replicate_false p a h n]

theorem flatMap_replicate_nil {α β : Type} (f : α → List β) (a : α) (h : f a = []) :
    ∀ n, (List.replicate n a).flatMap f = []
  | 0 => rfl
  | n + 1 => by
    simp [List.replicate, h, flatMap_replicate_nil f a h n]

/-- Inductive invariant of the pipeline, relative to the starting
records `recs0` and worker count `n`: worker-list length is stable,
records are exhausted once feeding ends, the acknowledgment count
matches the workers that returned, and the lines delivered to the sink
plus the in-flight and not-yet-produced lines always equal the
reference multiset. -/
structure PipeInv (step : Page → StepRes) (recs0 : List Page) (n : Nat) (c : Config) : Prop where
  wlen : c.workers.length = n
  recsFed : c.coord ≠ CoordPhase.feeding → c.recs = []
  doneCnt : countDone c.workers = acksRecvd n c.coord
  lines : (↑c.sink : Multiset String) + ↑(c.workers.flatMap pendingOf) +
      ↑(c.recs.flatMap (fun p => outsOf (step p))) = expectedLines step recs0
  sendLt : ∀ k, c.coord = CoordPhase.sending k → k < n
  awaitLt : ∀ k, c.coord = CoordPhase.awaiting k → k < n

theorem pipeInv_init (step : Page → StepRes) (recs : List Page) (n : Nat) :
    PipeInv step recs n (initConfig recs n) := by
  constructor
  · exact List.length_replicate n WStat.idle
  · intro h; exact absurd rfl h
  · simp [initConfig, countDone, acksRecvd, countP_replicate_false doneB WStat.idle rfl n]
  · simp [initConfig, flatMap_replicate_nil pendingOf WStat.idle rfl n, expectedLines]
  · intro k hk; exact absurd hk (by simp [initConfig])
  · intro k hk; exact absurd hk (by simp [initConfig])

theorem pipeInv_preserve {step : Page → StepRes} {recs0 : List Page} {n : Nat}
    {c c' : Config} {a : Act}
    (inv : PipeInv step recs0 n c) (h : applyAct step c a = some c') :
    PipeInv step recs0 n c' := by
  cases a with
  | feed i =>
    simp only [applyAct] at h
    split at h
    · rename_i cpv rsv owv p rs hcoord hrecs hget
      injection h with hc'
      subst hc'
      refine ⟨?_, ?_, ?_, ?_, ?_, ?_⟩
      · simpa [List.length_set] using inv.wlen
      · intro hne; exact absurd hcoord hne
      · have hcc := countP_set_eq doneB c.workers i WStat.idle (feedStat (step p)) hget
        rw [doneB_feedStat] at hcc
        simp [doneB] at hcc
        have hdc := inv.doneCnt
        simp only [countDone] at hdc ⊢
        omega
      · have hms := flatMapMS_set pendingOf c.workers i WStat.idle (feedStat (step p)) hget
        rw [pendingOf_feedStat] at hms
        simp only [pendingOf, Multiset.coe_nil, add_zero] at hms
        have hl := inv.lines
        rw [hrecs, List.flatMap_cons, coeAppendMS] at hl
        show (↑c.sink : Multiset String) + ↑((c.workers.set i (feedStat (step p))).flatMap pendingOf) +
          ↑(rs.flatMap (fun q => outsOf (step q))) = expectedLines step recs0
        rw [hms, ← hl]
        ac_rfl
      · intro k hk; exact inv.sendLt k hk
      · intro k hk; exact inv.awaitLt k hk
    · exact absurd h (by simp)
  | startShutdown =>
    simp only [applyAct] at h
    split at h
    · rename_i cpv rsv hcoord hrecs
      injection h with hc'
      subst hc'
      refine ⟨inv.wlen, ?_, ?_, inv.lines, ?_, ?_⟩
      · intro _; exact hrecs
      · have hdc := inv.doneCnt
        rw [hcoord] at hdc
        simp only [acksRecvd] at hdc
        have hw := inv.wlen
        by_cases hl : c.workers.length = 0
        · simp only [if_pos hl, acksRecvd]
          simp only [countDone] at hdc ⊢
          omega
        · simp only [if_neg hl, acksRecvd]
          exact hdc
      · intro k hk
        by_cases hl : c.workers.length = 0
        · rw [if_pos hl] at hk; cases hk
        · rw [if_neg hl] at hk
          injection hk with hk0
          have hw := inv.wlen
          omega
      · intro k hk
        by_cases hl : c.workers.length = 0
        · rw [if_pos hl] at hk; cases hk
        · rw [if_neg hl] at hk; cases hk
    · exact absurd h (by simp)
  | sentinel i =>
    simp only [applyAct] at h
    split at h
    · rename_i cpv owv k hcoord hget
      injection h with hc'
      subst hc'
      refine ⟨?_, ?_, ?_, ?_, ?_, ?_⟩
      · simpa [List.length_set] using inv.wlen
      · intro _
        exact inv.recsFed (by rw [hcoord]; intro hx; cases hx)
      · have hcc := countP_set_eq doneB c.workers i WStat.idle WStat.acking hget
        simp only [doneB, if_false] at hcc
        have hdc := inv.doneCnt
        rw [hcoord] at hdc
        simp only [acksRecvd] at hdc
        by_cases hkn : k + 1 = c.workers.length
        · rw [if_pos hkn]
          simp only [acksRecvd, countDone] at hdc ⊢
          omega
        · rw [if_neg hkn]
          simp only [acksRecvd, countDone] at hdc ⊢
          omega
      · have hms := flatMapMS_set pendingOf c.workers i WStat.idle WStat.acking hget
        simp only [pendingOf, Multiset.coe_nil, add_zero] at hms
        show (↑c.sink : Multiset String) + ↑((c.workers.set i WStat.acking).flatMap pendingOf) +
          ↑(c.recs.flatMap (fun q => outsOf (step q))) = expectedLines step recs0
        rw [hms]
        exact inv.lines
      · intro k' hk'
        by_cases hkn : k + 1 = c.workers.length
        · rw [if_pos hkn] at hk'; cases hk'
        · rw [if_neg hkn] at hk'
          injection hk' with hkk
          have hs := inv.sendLt k hcoord
          have hw := inv.wlen
          omega
      · intro k' hk'
        by_cases hkn : k + 1 = c.workers.length
        · rw [if_pos hkn] at hk'
          injection hk' with hkk
          have hs := inv.sendLt k hcoord
          omega
        · rw [if_neg hkn] at hk'; cases hk'
    · exact absurd h (by simp)
  | emit i =>
    simp only [applyAct] at h
    split at h
    · rename_i owv l ls hget
      injection h with hc'
      subst hc'
      refine ⟨?_, inv.recsFed, ?_, ?_, ?_, ?_⟩
      · simpa [List.length_set] using inv.wlen
      · have hcc := countP_set_eq doneB c.workers i (WStat.emitting (l :: ls)) (WStat.emitting ls) hget
        simp only [doneB, if_false] at hcc
        have hdc := inv.doneCnt
        simp only [countDone] at hdc ⊢
        omega
      · have hms := flatMapMS_set pendingOf c.workers i (WStat.emitting (l :: ls)) (WStat.emitting ls) hget
        simp only [pendingOf] at hms
        rw [show (l :: ls) = [l] ++ ls from rfl, coeAppendMS, ← add_assoc] at hms
        have key := add_right_cancel hms
        have hl := inv.lines
        show (↑(c.sink ++ [l]) : Multiset String) + ↑((c.workers.set i (WStat.emitting ls)).flatMap pendingOf) +
          ↑(c.recs.flatMap (fun q => outsOf (step q))) = expectedLines step recs0
        rw [coeAppendMS, ← hl]
        rw [← key]
        ac_rfl
      · intro k hk; exact inv.sendLt k hk
      · intro k hk; exact inv.awaitLt k hk
    · exact absurd h (by simp)
  | finish i =>
    simp only [applyAct] at h
    split at h
    · rename_i owv hget
      injection h with hc'
      subst hc'
      refine ⟨?_, inv.recsFed, ?_, ?_, ?_, ?_⟩
      · simpa [List.length_set] using inv.wlen
      · have hcc := countP_set_eq doneB c.workers i (WStat.emitting []) WStat.idle hget
        simp only [doneB, if_false] at hcc
        have hdc := inv.doneCnt
        simp only [countDone] at hdc ⊢
        omega
      · have hms := flatMapMS_set pendingOf c.workers i (WStat.emitting []) WStat.idle hget
        simp only [pendingOf, Multiset.coe_nil, add_zero] at hms
        show (↑c.sink : Multiset String) + ↑((c.workers.set i WStat.idle).flatMap pendingOf) +
          ↑(c.recs.flatMap (fun q => outsOf (step q))) = expectedLines step recs0
        rw [hms]
        exact inv.lines
      · intro k hk; exact inv.sendLt k hk
      · intro k hk; exact inv.awaitLt k hk
    · exact absurd h (by simp)
  | ack i =>
    simp only [applyAct] at h
    split at h
    · rename_i cpv owv k hcoord hget
      injection h with hc'
      subst hc'
      refine ⟨?_, ?_, ?_, ?_, ?_, ?_⟩
      · simpa [List.length_set] using inv.wlen
      · intro _
        exact inv.recsFed (by rw [hcoord]; intro hx; cases hx)
      · have hcc := countP_set_eq doneB c.workers i WStat.acking WStat.done hget
        simp [doneB] at hcc
        have hdc := inv.doneCnt
        rw [hcoord] at hdc
        simp only [acksRecvd] at hdc
        have hw := inv.wlen
        by_cases hkn : k + 1 = c.workers.length
        · rw [if_pos hkn]
          simp only [acksRecvd, countDone] at hdc ⊢
          omega
        · rw [if_neg hkn]
          simp only [acksRecvd, countDone] at hdc ⊢
          omega
      · have hms := flatMapMS_set pendingOf c.workers i WStat.acking WStat.done hget
        simp only [pendingOf, Multiset.coe_nil, add_zero] at hms
        show (↑c.sink : Multiset String) + ↑((c.workers.set i WStat.done).flatMap pendingOf) +
          ↑(c.recs.flatMap (fun q => outsOf (step q))) = expectedLines step recs0
        rw [hms]
        exact inv.lines
      · intro k' hk'
        by_cases hkn : k + 1 = c.workers.length
        · rw [if_pos hkn] at hk'; cases hk'
        · rw [if_neg hkn] at hk'; cases hk'
      · intro k' hk'
        by_cases hkn : k + 1 = c.workers.length
        · rw [if_pos hkn] at hk'; cases hk'
        · rw [if_neg hkn] at hk'
          injection hk' with hkk
          have hs := inv.awaitLt k hcoord
          have hw := inv.wlen
          omega
    · exact absurd h (by simp)

theorem pipeInv_run {step : Page → StepRes} {recs0 : List Page} {n : Nat} :
    ∀ (acts : List Act) {c c' : Config},
      runActs step c acts = some c' → PipeInv step recs0 n c → PipeInv step recs0 n c'
  | [], c, c', h, inv => by
    simp only [runActs] at h
    injection h with h
    rwa [← h]
  | a :: as, c, c', h, inv => by
    simp only [runActs] at h
    cases hap : applyAct step c a with
    | none => rw [hap] at h; cases h
    | some c1 =>
      rw [hap] at h
      exact pipeInv_run as h (pipeInv_preserve inv hap)

/-- Every worker goroutine has returned. -/
def AllDone (c : Config) : Prop := ∀ w ∈ c.workers, w = WStat.done

theorem allDone_of_countDone {ws : List WStat} (h : countDone ws = ws.length) :
    ∀ w ∈ ws, w = WStat.done := by
  have hall := List.countP_eq_length.mp h
  intro w hw
  have hd := hall w hw
  cases w <;> simp [doneB] at hd
  rfl

theorem flatMap_pendingOf_nil {ws : List WStat} (h : ∀ w ∈ ws, w = WStat.done) :
    ws.flatMap pendingOf = [] := by
  induction ws with
  | nil => rfl
  | cons a l ih =>
    have ha := h a (by simp)
    subst ha
    simp only [List.flatMap_cons, pendingOf]
    exact ih (fun w hw => h w (by simp [hw]))

/-- In any invariant-respecting configuration whose coordinator has
closed the outtake, every worker has returned, exactly `n`
acknowledgments were received, and the sink holds exactly the reference
multiset of lines. -/
theorem closed_sink_spec {step : Page → StepRes} {recs0 : List Page} {n : Nat} {c : Config}
    (inv : PipeInv step recs0 n c) (hc : c.coord = CoordPhase.closed) :
    (↑c.sink : Multiset String) = expectedLines step recs0 ∧ AllDone c ∧
      countDone c.workers = n := by
  have hdc := inv.doneCnt
  rw [hc] at hdc
  simp only [acksRecvd] at hdc
  have hall : ∀ w ∈ c.workers, w = WStat.done :=
    allDone_of_countDone (by rw [hdc, inv.wlen])
  have hrec := inv.recsFed (by rw [hc]; intro hx; cases hx)
  have hl := inv.lines
  rw [hrec, flatMap_pendingOf_nil hall] at hl
  simp only [List.flatMap_nil, Multiset.coe_nil, add_zero] at hl
  exact ⟨hl, hall, hdc⟩

/-- Worker predicate: blocked on the ack send. -/
def ackingB : WStat → Bool
  | WStat.acking => true
  | _ => false

/-- Additional invariant used for the shutdown claim, valid when no
pending record makes the strategy exit a worker loop early: the number
of stopped workers tracks the coordinator phase exactly. -/
structure StopInv (step : Page → StepRes) (n : Nat) (c : Config) : Prop where
  noExit : ∀ p ∈ c.recs, step p ≠ StepRes.exit
  stopCnt : countStopped c.workers = stopTarget n c.coord

theorem countStopped_eq (ws : List WStat) :
    countStopped ws = ws.countP ackingB + countDone ws := by
  induction ws with
  | nil => rfl
  | cons a l ih =>
    cases a <;>
      simp [countStopped, countDone, List.countP_cons, ackingB, stoppedB, doneB] at ih ⊢ <;>
      omega

theorem stopInv_init (step : Page → StepRes) (recs : List Page) (n : Nat)
    (hno : ∀ p ∈ recs, step p ≠ StepRes.exit) :
    StopInv step n (initConfig recs n) := by
  constructor
  · exact hno
  · simp [initConfig, countStopped, stopTarget,
      countP_replicate_false stoppedB WStat.idle rfl n]

theorem stoppedB_feedStat_of_ne {r : StepRes} (h : r ≠ StepRes.exit) :
    stoppedB (feedStat r) = false := by
  cases r with
  | cont os ds => rfl
  | exit => exact absurd rfl h

theorem stopInv_preserve {step : Page → StepRes} {recs0 : List Page} {n : Nat}
    {c c' : Config} {a : Act}
    (inv : PipeInv step recs0 n c) (sinv : StopInv step n c)
    (h : applyAct step c a = some c') : StopInv step n c' := by
  cases a with
  | feed i =>
    simp only [applyAct] at h
    split at h
    · rename_i cpv rsv owv p rs hcoord hrecs hget
      injection h with hc'
      subst hc'
      have hpmem : p ∈ c.recs := by rw [hrecs]; exact List.mem_cons_self p rs
      constructor
      · intro q hq
        exact sinv.noExit q (by rw [hrecs]; exact List.mem_cons_of_mem p hq)
      · have hcc := countP_set_eq stoppedB c.workers i WStat.idle (feedStat (step p)) hget
        rw [stoppedB_feedStat_of_ne (sinv.noExit p hpmem)] at hcc
        simp [stoppedB] at hcc
        have hsc := sinv.stopCnt
        simp only [countStopped] at hsc ⊢
        rw [hcc]
        exact hsc
    · exact absurd h (by simp)
  | startShutdown =>
    simp only [applyAct] at h
    split at h
    · rename_i cpv rsv hcoord hrecs
      injection h with hc'
      subst hc'
      constructor
      · intro q hq
        rw [hrecs] at hq
        cases hq
      · have hsc := sinv.stopCnt
        rw [hcoord] at hsc
        simp only [stopTarget] at hsc
        have hw := inv.wlen
        by_cases hl : c.workers.length = 0
        · rw [if_pos hl]
          simp only [stopTarget]
          omega
        · rw [if_neg hl]
          simp only [stopTarget]
          exact hsc
    · exact absurd h (by simp)
  | sentinel i =>
    simp only [applyAct] at h
    split at h
    · rename_i cpv owv k hcoord hget
      injection h with hc'
      subst hc'
      constructor
      · intro q hq
        exact sinv.noExit q hq
      · have hcc := countP_set_eq stoppedB c.workers i WStat.idle WStat.acking hget
        simp [stoppedB] at hcc
        have hsc := sinv.stopCnt
        rw [hcoord] at hsc
        simp only [stopTarget] at hsc
        have hw := inv.wlen
        by_cases hkn : k + 1 = c.workers.length
        · rw [if_pos hkn]
          simp only [stopTarget, countStopped] at hsc ⊢
          omega
        · rw [if_neg hkn]
          simp only [stopTarget, countStopped] at hsc ⊢
          omega
    · exact absurd h (by simp)
  | emit i =>
    simp only [applyAct] at h
    split at h
    · rename_i owv l ls hget
      injection h with hc'
      subst hc'
      constructor
      · intro q hq; exact sinv.noExit q hq
      · have hcc := countP_set_eq stoppedB c.workers i (WStat.emitting (l :: ls)) (WStat.emitting ls) hget
        simp [stoppedB] at hcc
        have hsc := sinv.stopCnt
        simp only [countStopped] at hsc ⊢
        omega
    · exact absurd h (by simp)
  | finish i =>
    simp only [applyAct] at h
    split at h
    · rename_i owv hget
      injection h with hc'
      subst hc'
      constructor
      · intro q hq; exact sinv.noExit q hq
      · have hcc := countP_set_eq stoppedB c.workers i (WStat.emitting []) WStat.idle hget
        simp [stoppedB] at hcc
        have hsc := sinv.stopCnt
        simp only [countStopped] at hsc ⊢
        omega
    · exact absurd h (by simp)
  | ack i =>
    simp only [applyAct] at h
    split at h
    · rename_i cpv owv k hcoord hget
      injection h with hc'
      subst hc'
      constructor
      · intro q hq; exact sinv.noExit q hq
      · have hcc := countP_set_eq stoppedB c.workers i WStat.acking WStat.done hget
        simp [stoppedB] at hcc
        have hsc := sinv.stopCnt
        rw [hcoord] at hsc
        simp only [stopTarget] at hsc
        by_cases hkn : k + 1 = c.workers.length
        · rw [if_pos hkn]
          simp only [stopTarget, countStopped] at hsc ⊢
          omega
        · rw [if_neg hkn]
          simp only [stopTarget, countStopped] at hsc ⊢
          omega
    · exact absurd h (by simp)

theorem stopInv_run {step : Page → StepRes} {recs0 : List Page} {n : Nat} :
    ∀ (acts : List Act) {c c' : Config},
      runActs step c acts = some c' → PipeInv step recs0 n c → StopInv step n c →
        StopInv step n c'
  | [], c, c', h, inv, sinv => by
    simp only [runActs] at h
    injection h with h
    rwa [← h]
  | a :: as, c, c', h, inv, sinv => by
    simp only [runActs] at h
    cases hap : applyAct step c a with
    | none => rw [hap] at h; cases h
    | some c1 =>
      rw [hap] at h
      exact stopInv_run as h (pipeInv_preserve inv hap) (stopInv_preserve inv sinv hap)

theorem exists_not_of_countP_lt {α : Type} {p : α → Bool} {ws : List α}
    (h : ws.countP p < ws.length) : ∃ w ∈ ws, p w = false := by
  by_contra hcon
  push_neg at hcon
  have hall : ∀ w ∈ ws, p w = true := by
    intro w hw
    cases hpw : p w
    · exact absurd hpw (hcon w hw)
    · rfl
  have := List.countP_eq_length.mpr hall
  omega

/-- Some interleaving action is enabled in `c`. -/
def Enabled (step : Page → StepRes) (c : Config) : Prop :=
  ∃ a, (applyAct step c a).isSome

/-- Progress: as long as no pending record exits a worker early, every
reachable configuration is either fully shut down (outtake closed, all
workers returned) or has an enabled action — the pipeline cannot
deadlock. -/
theorem progress_or_final {step : Page → StepRes} {recs0 : List Page} {n : Nat} {c : Config}
    (hn : 0 < n) (inv : PipeInv step recs0 n c) (sinv : StopInv step n c) :
    (c.coord = CoordPhase.closed ∧ AllDone c) ∨ Enabled step c := by
  cases hc : c.coord with
  | closed =>
    left
    exact ⟨rfl, (closed_sink_spec inv hc).2.1⟩
  | feeding =>
    right
    have hsc := sinv.stopCnt
    rw [hc] at hsc
    simp only [stopTarget] at hsc
    have hw := inv.wlen
    have hlt : c.workers.countP stoppedB < c.workers.length := by
      simp only [countStopped] at hsc
      omega
    obtain ⟨w, hwmem, hwf⟩ := exists_not_of_countP_lt hlt
    obtain ⟨i, hi⟩ := List.get?_of_mem hwmem
    cases hrecs : c.recs with
    | nil => exact ⟨Act.startShutdown, by simp only [applyAct]; rw [hc, hrecs]; rfl⟩
    | cons p rs =>
      cases w with
      | idle => exact ⟨Act.feed i, by simp only [applyAct]; rw [hc, hrecs, hi]; rfl⟩
      | emitting ls =>
        cases ls with
        | nil => exact ⟨Act.finish i, by simp only [applyAct]; rw [hi]; rfl⟩
        | cons l ls' => exact ⟨Act.emit i, by simp only [applyAct]; rw [hi]; rfl⟩
      | acking => simp [stoppedB] at hwf
      | done => simp [stoppedB] at hwf
  | sending k =>
    right
    have hsc := sinv.stopCnt
    rw [hc] at hsc
    simp only [stopTarget] at hsc
    have hw := inv.wlen
    have hk := inv.sendLt k hc
    have hlt : c.workers.countP stoppedB < c.workers.length := by
      simp only [countStopped] at hsc
      omega
    obtain ⟨w, hwmem, hwf⟩ := exists_not_of_countP_lt hlt
    obtain ⟨i, hi⟩ := List.get?_of_mem hwmem
    cases w with
    | idle => exact ⟨Act.sentinel i, by simp only [applyAct]; rw [hc, hi]; rfl⟩
    | emitting ls =>
      cases ls with
      | nil => exact ⟨Act.finish i, by simp only [applyAct]; rw [hi]; rfl⟩
      | cons l ls' => exact ⟨Act.emit i, by simp only [applyAct]; rw [hi]; rfl⟩
    | acking => simp [stoppedB] at hwf
    | done => simp [stoppedB] at hwf
  | awaiting k =>
    right
    have hsc := sinv.stopCnt
    rw [hc] at hsc
    simp only [stopTarget] at hsc
    have hdc := inv.doneCnt
    rw [hc] at hdc
    simp only [acksRecvd] at hdc
    have hk := inv.awaitLt k hc
    have hw := inv.wlen
    have hsplit := countStopped_eq c.workers
    have hpos : 0 < c.workers.countP ackingB := by
      simp only [countStopped, countDone] at hsc hdc hsplit
      omega
    obtain ⟨w, hwmem, hwt⟩ := List.countP_pos_iff.mp hpos
    have hwa : w = WStat.acking := by
      cases w <;> simp [ackingB] at hwt
      rfl
    subst hwa
    obtain ⟨i, hi⟩ := List.get?_of_mem hwmem
    exact ⟨Act.ack i, by simp only [applyAct]; rw [hc, hi]; rfl⟩

theorem measure_decrease {step : Page → StepRes} {c c' : Config} {a : Act}
    (h : applyAct step c a = some c') : confMeasure step c' < confMeasure step c := by
  cases a with
  | feed i =>
    simp only [applyAct] at h
    split at h
    · rename_i cpv rsv owv p rs hcoord hrecs hget
      injection h with hc'
      subst hc'
      have hsw := sum_map_set wWeight c.workers i WStat.idle (feedStat (step p)) hget
      have hws : wWeight (feedStat (step p)) ≤ 3 + (outsOf (step p)).length := by
        cases hstep : step p <;> simp [feedStat, wWeight, outsOf]
      rw [show wWeight WStat.idle = 2 from rfl] at hsw
      simp only [confMeasure]
      rw [hrecs]
      simp only [List.map_cons, List.sum_cons]
      omega
    · exact absurd h (by simp)
  | startShutdown =>
    simp only [applyAct] at h
    split at h
    · rename_i cpv rsv hcoord hrecs
      injection h with hc'
      subst hc'
      simp only [confMeasure]
      rw [hcoord]
      by_cases hl : c.workers.length = 0
      · rw [if_pos hl]
        simp only [coordWeight]
        omega
      · rw [if_neg hl]
        simp only [coordWeight]
        omega
    · exact absurd h (by simp)
  | sentinel i =>
    simp only [applyAct] at h
    split at h
    · rename_i cpv owv k hcoord hget
      injection h with hc'
      subst hc'
      have hsw := sum_map_set wWeight c.workers i WStat.idle WStat.acking hget
      simp only [wWeight] at hsw
      simp only [confMeasure]
      rw [hcoord]
      by_cases hkn : k + 1 = c.workers.length
      · rw [if_pos hkn]
        simp only [coordWeight]
        omega
      · rw [if_neg hkn]
        simp only [coordWeight]
        omega
    · exact absurd h (by simp)
  | emit i =>
    simp only [applyAct] at h
    split at h
    · rename_i owv l ls hget
      injection h with hc'
      subst hc'
      have hsw := sum_map_set wWeight c.workers i (WStat.emitting (l :: ls)) (WStat.emitting ls) hget
      simp only [wWeight, List.length_cons] at hsw
      simp only [confMeasure]
      omega
    · exact absurd h (by simp)
  | finish i =>
    simp only [applyAct] at h
    split at h
    · rename_i owv hget
      injection h with hc'
      subst hc'
      have hsw := sum_map_set wWeight c.workers i (WStat.emitting []) WStat.idle hget
      simp only [wWeight, List.length_nil] at hsw
      simp only [confMeasure]
      omega
    · exact absurd h (by simp)
  | ack i =>
    simp only [applyAct] at h
    split at h
    · rename_i cpv owv k hcoord hget
      injection h with hc'
      subst hc'
      have hsw := sum_map_set wWeight c.workers i WStat.acking WStat.done hget
      simp only [wWeight] at hsw
      simp only [confMeasure]
      rw [hcoord]
      by_cases hkn : k + 1 = c.workers.length
      · rw [if_pos hkn]
        simp only [coordWeight]
        omega
      · rw [if_neg hkn]
        simp only [coordWeight]
        omega
    · exact absurd h (by simp)

theorem runActs_measure {step : Page → StepRes} :
    ∀ (acts : List Act) {c c' : Config}, runActs step c acts = some c' →
      confMeasure step c' + acts.length ≤ confMeasure step c
  | [], c, c', h => by
    simp only [runActs] at h
    injection h with h
    rw [← h]
    simp
  | a :: as, c, c', h => by
    simp only [runActs] at h
    cases hap : applyAct step c a with
    | none => rw [hap] at h; cases h
    | some c1 =>
      rw [hap] at h
      have h1 := measure_decrease hap
      have h2 := runActs_measure as h
      simp only [List.length_cons]
      omega

set_option maxRecDepth 4000 in
theorem escapeByte_no_colon : ∀ b : Nat, b < 256 → ':' ∉ escapeByte b := by
  decide

theorem utf8Bytes_lt (c : Char) : ∀ b ∈ utf8Bytes c, b < 256 := by
  intro b hb
  simp only [utf8Bytes] at hb
  split_ifs at hb <;> simp only [List.mem_cons, List.not_mem_nil, or_false] at hb
  · rw [hb]; exact Nat.mod_lt _ (by omega)
  · rcases hb with rfl | rfl <;> exact Nat.mod_lt _ (by omega)
  · rcases hb with rfl | rfl | rfl <;> exact Nat.mod_lt _ (by omega)
  · rcases hb with rfl | rfl | rfl | rfl <;> exact Nat.mod_lt _ (by omega)

theorem colon_not_escape (cs : List Char) : ':' ∉ queryEscapeChars cs := by
  intro hmem
  simp only [queryEscapeChars, List.mem_flatMap] at hmem
  obtain ⟨b, hb, hcolon⟩ := hmem
  obtain ⟨ch, hch, hbbytes⟩ := hb
  exact escapeByte_no_colon b (utf8Bytes_lt ch b hbbytes) hcolon

theorem stripPre_mem : ∀ (ps cs : List Char), (stripPre ps cs).isSome → ∀ p ∈ ps, p ∈ cs
  | [], cs, h, p, hp => absurd hp (List.not_mem_nil p)
  | p :: ps, [], h, q, hq => by simp [stripPre] at h
  | p :: ps, c :: cs, h, q, hq => by
    simp only [stripPre] at h
    by_cases hcp : c = p
    · rw [if_pos hcp] at h
      subst hcp
      rcases List.mem_cons.mp hq with rfl | hq2
      · exact List.mem_cons_self q cs
      · exact List.mem_cons_of_mem c (stripPre_mem ps cs h q hq2)
    · rw [if_neg hcp] at h
      cases h

theorem colon_mem_markers : ∀ pre ∈ nsMarkers, ':' ∈ pre := by decide

/-- The namespace filter is dead code: `CanonicalizeTitle` percent-encodes
every colon (as `%3A`), so the canonical title can never start with a
marker of the form `name:`. -/
theorem filterMatch_canonical_false (t : String) :
    filterMatch (canonicalizeTitle t) = false := by
  simp only [filterMatch, List.any_eq_false]
  intro pre hpre
  intro hsome
  have hmem : ':' ∈ (canonicalizeTitle t).data :=
    stripPre_mem pre ((canonicalizeTitle t).data) hsome ':' (colon_mem_markers pre hpre)
  exact colon_not_escape ((replaceSpaces (goToLower t)).data) hmem

/-- Characters kept verbatim by percent-encoding and fixed by a second
lowering/underscoring pass: lower-case ASCII letters, digits, and the
unreserved marks `-`, `_`, `.`, `~`. -/
def stableChar (c : Char) : Bool :=
  (97 ≤ c.toNat && c.toNat ≤ 122) || (48 ≤ c.toNat && c.toNat ≤ 57) ||
  c.toNat == 45 || c.toNat == 95 || c.toNat == 46 || c.toNat == 126

theorem char_eq_of_toNat_eq {c d : Char} (h : c.toNat = d.toNat) : c = d :=
  Char.ext (UInt32.toNat.inj h)

theorem char_toNat_ofNat {n : Nat} (h : n.isValidChar) : (Char.ofNat n).toNat = n := by
  simp [Char.ofNat, h, Char.ofNatAux, Char.toNat, UInt32.toNat, BitVec.toNat_ofNatLt]

theorem charOfNat_toNat {c : Char} (h : c.toNat < 55296) : Char.ofNat c.toNat = c :=
  char_eq_of_toNat_eq (char_toNat_ofNat (Or.inl h))

theorem map_id_of_fix {α : Type} (f : α → α) :
    ∀ (l : List α), (∀ c ∈ l, f c = c) → l.map f = l
  | [], _ => rfl
  | a :: l, h => by
    rw [List.map_cons, h a (List.mem_cons_self a l),
      map_id_of_fix f l (fun c hc => h c (List.mem_cons_of_mem a hc))]

theorem string_mk_data (s : String) : String.mk s.data = s := rfl

theorem workerRun_acks_le (step : Page → StepRes) :
    ∀ msgs : List (Option Page), (workerRun step msgs).2.2 ≤ 1
  | [] => by simp [workerRun]
  | none :: rest => by simp [workerRun]
  | some p :: rest => by
    simp only [workerRun]
    cases step p with
    | exit => simp
    | cont os ds => simpa using workerRun_acks_le step rest

theorem workerRun_acks_sentinel (step : Page → StepRes) :
    ∀ msgs : List (Option Page), none ∈ msgs → (workerRun step msgs).2.2 = 1
  | [], h => absurd h (List.not_mem_nil none)
  | none :: rest, _ => by simp [workerRun]
  | some p :: rest, h => by
    have hmem : none ∈ rest := by
      rcases List.mem_cons.mp h with hcon | hr
      · cases hcon
      · exact hr
    simp only [workerRun]
    cases step p with
    | exit => rfl
    | cont os ds => simpa using workerRun_acks_sentinel step rest hmem

/-- C5 counterexample: `canonicalize` is not idempotent as claimed.  For
the title `":"` the first pass yields `"%3A"`, and the second pass
lowercases the hex and escapes the percent sign, yielding `"%253a"`. -/
theorem canonicalize_not_idempotent_on_colon :
    canonicalizeTitle (canonicalizeTitle ":") ≠ canonicalizeTitle ":" ∧
      canonicalizeTitle ":" = "%3A" ∧
      canonicalizeTitle (canonicalizeTitle ":") = "%253a" := by
  decide

/-- Per-character escape output of `url.QueryEscape`. -/
def escChar (c : Char) : List Char := (utf8Bytes c).flatMap escapeByte

theorem queryEscapeChars_eq :
    ∀ cs : List Char, queryEscapeChars cs = cs.flatMap escChar
  | [] => rfl
  | c :: cs => by
    show ((c :: cs).flatMap utf8Bytes).flatMap escapeByte = escChar c ++ cs.flatMap escChar
    rw [List.flatMap_cons, List.flatMap_append]
    exact congrArg (fun l => escChar c ++ l) (queryEscapeChars_eq cs)

theorem escapeByte_length_pos (b : Nat) : 1 ≤ (escapeByte b).length := by
  simp only [escapeByte]
  split_ifs <;> simp

theorem flatMap_escapeByte_ge :
    ∀ bs : List Nat, bs.length ≤ (bs.flatMap escapeByte).length
  | [] => by simp
  | b :: bs => by
    simp only [List.flatMap_cons, List.length_append, List.length_cons]
    have h1 := escapeByte_length_pos b
    have h2 := flatMap_escapeByte_ge bs
    omega

theorem utf8Bytes_length_pos (c : Char) : 1 ≤ (utf8Bytes c).length := by
  simp only [utf8Bytes]
  split_ifs <;> simp

theorem escChar_length_pos (c : Char) : 1 ≤ (escChar c).length := by
  have h1 := utf8Bytes_length_pos c
  have h2 := flatMap_escapeByte_ge (utf8Bytes c)
  simp only [escChar]
  omega

theorem queryEscapeChars_length_ge (cs : List Char) :
    cs.length ≤ (queryEscapeChars cs).length := by
  rw [queryEscapeChars_eq]
  induction cs with
  | nil => simp
  | cons c cs ih =>
    simp only [List.flatMap_cons, List.length_append, List.length_cons]
    have := escChar_length_pos c
    omega

theorem queryEscapeChars_length_gt {c0 : Char} (h2 : 2 ≤ (escChar c0).length) :
    ∀ cs : List Char, c0 ∈ cs → cs.length < (queryEscapeChars cs).length
  | [], h => absurd h (List.not_mem_nil c0)
  | c :: cs, h => by
    rw [queryEscapeChars_eq]
    simp only [List.flatMap_cons, List.length_append, List.length_cons]
    rcases List.mem_cons.mp h with rfl | hmem
    · have hge := queryEscapeChars_length_ge cs
      rw [queryEscapeChars_eq] at hge
      omega
    · have h1 := escChar_length_pos c
      have hlt := queryEscapeChars_length_gt h2 cs hmem
      rw [queryEscapeChars_eq] at hlt
      omega

theorem nat_le_or_left (a b : Nat) : a ≤ a ||| b :=
  Nat.le_of_testBit (by intro i hi; simp [Nat.testBit_or, hi])

theorem stableChar_lt {c : Char} (h : stableChar c = true) : c.toNat < 128 := by
  simp [stableChar] at h
  omega

theorem escChar_stable {c : Char} (h : stableChar c = true) : escChar c = [c] := by
  have hlt : c.toNat < 128 := stableChar_lt h
  have hmod : c.toNat % 256 = c.toNat := Nat.mod_eq_of_lt (by omega)
  have hunres : isUnreservedByte c.toNat = true := by
    simp [stableChar] at h
    simp [isUnreservedByte]
    omega
  simp only [escChar, utf8Bytes, if_pos hlt, List.flatMap_cons, List.flatMap_nil,
    List.append_nil]
  rw [hmod]
  simp only [escapeByte]
  rw [if_pos hunres, charOfNat_toNat (by omega)]

theorem goToLowerChar_stable {c : Char} (h : stableChar c = true) : goToLowerChar c = c := by
  simp [stableChar] at h
  simp only [goToLowerChar]
  rw [if_neg (by omega)]

theorem space_ne_of_stable {c : Char} (h : stableChar c = true) :
    (if c = ' ' then '_' else c) = c := by
  rw [if_neg]
  intro hcontra
  subst hcontra
  simp [stableChar] at h

theorem queryEscapeChars_stable_all :
    ∀ cs : List Char, (∀ c ∈ cs, stableChar c = true) → queryEscapeChars cs = cs
  | [], _ => rfl
  | c :: cs, h => by
    rw [queryEscapeChars_eq, List.flatMap_cons,
      escChar_stable (h c (List.mem_cons_self c cs))]
    have ih := queryEscapeChars_stable_all cs (fun q hq => h q (List.mem_cons_of_mem c hq))
    rw [queryEscapeChars_eq] at ih
    rw [ih]
    rfl

theorem contByte_escapes (z : Nat) :
    '%' ∈ escapeByte ((128 ||| (z &&& 63)) % 256) := by
  have hz : z &&& 63 ≤ 63 := Nat.and_le_right
  have hlt : 128 ||| (z &&& 63) < 256 := by
    have h : 128 ||| (z &&& 63) < 2 ^ 8 := Nat.or_lt_two_pow (by norm_num) (by omega)
    omega
  have hge : 128 ≤ 128 ||| (z &&& 63) := nat_le_or_left 128 (z &&& 63)
  have hmod : (128 ||| (z &&& 63)) % 256 = 128 ||| (z &&& 63) := Nat.mod_eq_of_lt hlt
  rw [hmod]
  have hunres : isUnreservedByte (128 ||| (z &&& 63)) = false := by
    simp [isUnreservedByte]
    omega
  simp only [escapeByte]
  rw [if_neg (by simp [hunres]), if_neg (by omega)]
  simp

/-- An unstable character that is neither an ASCII capital nor a space
escapes to a block containing a percent sign, of length at least two. -/
theorem escChar_unstable {c : Char} (hns : stableChar c = false)
    (hup : ¬(65 ≤ c.toNat ∧ c.toNat ≤ 90)) (hsp : c.toNat ≠ 32) :
    '%' ∈ escChar c ∧ 2 ≤ (escChar c).length := by
  by_cases hlt : c.toNat < 128
  · have hmod : c.toNat % 256 = c.toNat := Nat.mod_eq_of_lt (by omega)
    have hunres : isUnreservedByte c.toNat = false := by
      simp [stableChar] at hns
      simp [isUnreservedByte]
      omega
    simp only [escChar, utf8Bytes, if_pos hlt, List.flatMap_cons, List.flatMap_nil,
      List.append_nil]
    rw [hmod]
    simp only [escapeByte]
    rw [if_neg (by simp [hunres]), if_neg hsp]
    exact ⟨by simp, by simp⟩
  · have hmem : ((128 ||| (c.toNat &&& 63)) % 256) ∈ utf8Bytes c := by
      simp only [utf8Bytes, if_neg hlt]
      split_ifs <;> simp
    have hlen : 2 ≤ (utf8Bytes c).length := by
      simp only [utf8Bytes, if_neg hlt]
      split_ifs <;> simp
    have hfm := flatMap_escapeByte_ge (utf8Bytes c)
    constructor
    · simp only [escChar, List.mem_flatMap]
      exact ⟨_, hmem, contByte_escapes c.toNat⟩
    · simp only [escChar]
      omega

theorem replace_lower_no_upper (s : String) :
    ∀ c ∈ (replaceSpaces (goToLower s)).data, ¬(65 ≤ c.toNat ∧ c.toNat ≤ 90) := by
  intro c hc
  have hc2 : c ∈ (s.data.map goToLowerChar).map (fun d => if d = ' ' then '_' else d) := hc
  rw [List.mem_map] at hc2
  obtain ⟨d, hd, rfl⟩ := hc2
  rw [List.mem_map] at hd
  obtain ⟨e, _, rfl⟩ := hd
  by_cases hsp : goToLowerChar e = ' '
  · rw [if_pos hsp]
    decide
  · rw [if_neg hsp]
    simp only [goToLowerChar]
    by_cases hup : 65 ≤ e.toNat ∧ e.toNat ≤ 90
    · rw [if_pos hup]
      have hrt : (Char.ofNat (e.toNat + 32)).toNat = e.toNat + 32 :=
        char_toNat_ofNat (Or.inl (by omega))
      omega
    · rw [if_neg hup]
      exact hup

theorem replace_lower_no_space (s : String) :
    ∀ c ∈ (replaceSpaces (goToLower s)).data, c.toNat ≠ 32 := by
  intro c hc
  have hc2 : c ∈ (s.data.map goToLowerChar).map (fun d => if d = ' ' then '_' else d) := hc
  rw [List.mem_map] at hc2
  obtain ⟨d, _, rfl⟩ := hc2
  by_cases hsp : d = ' '
  · rw [if_pos hsp]
    decide
  · rw [if_neg hsp]
    intro h32
    exact hsp (char_eq_of_toNat_eq (by rw [h32]; rfl))

/-- C5 (amended): `canonicalize` is idempotent exactly on the titles
whose lowered, underscore-substituted form consists only of stable
characters — lower-case ASCII letters, digits, `-`, `_`, `.`, `~` —
i.e. exactly when the percent-encoding pass keeps every character
verbatim; for every other title the second pass changes the result
(e.g. `":"` gives `"%3A"` and then `"%253a"`). -/
theorem canonicalize_idempotent_iff (t : String) :
    canonicalizeTitle (canonicalizeTitle t) = canonicalizeTitle t ↔
      ∀ c ∈ (replaceSpaces (goToLower t)).data, stableChar c = true := by
  constructor
  · intro hid
    by_contra hns
    push_neg at hns
    obtain ⟨c0, hc0mem, hc0⟩ := hns
    have hc0f : stableChar c0 = false := by
      cases h : stableChar c0
      · rfl
      · exact absurd h hc0
    have hup := replace_lower_no_upper t c0 hc0mem
    have hsp := replace_lower_no_space t c0 hc0mem
    obtain ⟨hpc, _⟩ := escChar_unstable hc0f hup hsp
    have hpmem : '%' ∈ (canonicalizeTitle t).data := by
      show '%' ∈ queryEscapeChars (replaceSpaces (goToLower t)).data
      rw [queryEscapeChars_eq]
      exact List.mem_flatMap.mpr ⟨c0, hc0mem, hpc⟩
    have hdata : queryEscapeChars (replaceSpaces (goToLower (canonicalizeTitle t))).data =
        (canonicalizeTitle t).data := congrArg String.data hid
    have hvlen : (replaceSpaces (goToLower (canonicalizeTitle t))).data.length =
        (canonicalizeTitle t).data.length := by
      show (((canonicalizeTitle t).data.map goToLowerChar).map
        (fun d => if d = ' ' then '_' else d)).length = _
      simp [List.length_map]
    by_cases hall : ∀ d ∈ (replaceSpaces (goToLower (canonicalizeTitle t))).data,
        stableChar d = true
    · have hfix := queryEscapeChars_stable_all _ hall
      rw [hfix] at hdata
      rw [← hdata] at hpmem
      exact absurd (hall '%' hpmem) (by decide)
    · push_neg at hall
      obtain ⟨d, hdmem, hd⟩ := hall
      have hdf : stableChar d = false := by
        cases h : stableChar d
        · rfl
        · exact absurd h hd
      have hup2 := replace_lower_no_upper (canonicalizeTitle t) d hdmem
      have hsp2 := replace_lower_no_space (canonicalizeTitle t) d hdmem
      obtain ⟨_, hlen2⟩ := escChar_unstable hdf hup2 hsp2
      have hgt := queryEscapeChars_length_gt hlen2 _ hdmem
      rw [hdata] at hgt
      omega
  · intro h
    have hesc : canonicalizeTitle t = replaceSpaces (goToLower t) := by
      show String.mk (queryEscapeChars (replaceSpaces (goToLower t)).data) = _
      rw [queryEscapeChars_stable_all _ h, string_mk_data]
    rw [hesc]
    have hlow : goToLower (replaceSpaces (goToLower t)) = replaceSpaces (goToLower t) := by
      show String.mk ((replaceSpaces (goToLower t)).data.map goToLowerChar) = _
      rw [map_id_of_fix goToLowerChar _ (fun c hc => goToLowerChar_stable (h c hc)),
        string_mk_data]
    have hrep : replaceSpaces (replaceSpaces (goToLower t)) = replaceSpaces (goToLower t) := by
      show String.mk ((replaceSpaces (goToLower t)).data.map
        (fun c => if c = ' ' then '_' else c)) = _
      rw [map_id_of_fix _ _ (fun c hc => space_ne_of_stable (h c hc)), string_mk_data]
    show queryEscape (replaceSpaces (goToLower (replaceSpaces (goToLower t)))) = _
    rw [hlow, hrep]
    exact hesc

/-- C5 witness: the amended characterization applied at `"Apollo 11"`
(all characters of `apollo_11` are stable, so canonicalization is
idempotent there). -/
theorem canonicalize_idempotent_iff_witness :
    canonicalizeTitle (canonicalizeTitle "Apollo 11") = canonicalizeTitle "Apollo 11" :=
  (canonicalize_idempotent_iff "Apollo 11").mpr (by decide)

/-- C2: the namespace filter never matches a canonical title, because
`CanonicalizeTitle` percent-encodes the colon before the filter runs;
in particular the record titled `File:Example` (canonical title
`file%3Aexample`) is treated as eligible and the Vanilla strategy emits
an output line for it, although `file:example` itself would match the
filter. -/
theorem namespace_filter_never_matches :
    (∀ t : String, filterMatch (canonicalizeTitle t) = false) ∧
      canonicalizeTitle "File:Example" = "file%3Aexample" ∧
      filterMatch "file:example" = true ∧
      outsOf (stepVanilla
        { title := "File:Example", canonicalTitle := "", redirTitle := "", text := "hi" }) =
        ["\x7b\"title\":\"File:Example\",\"ctitle\":\"file%3Aexample\",\"redirect\":\x7b\"title\":\"\"\x7d,\"text\":\"hi\"\x7d"] := by
  refine ⟨filterMatch_canonical_false, by decide, by decide, by decide⟩

/-- C3: a record with a non-empty redirect title is ineligible, and all
four strategies produce zero output lines for it; the eligibility test
(`canonical title unmatched by the filter ∧ redirect title empty`) is
the same expression in all four worker bodies. -/
theorem redirect_records_produce_no_output (cm am : String) (p : Page)
    (h : p.redirTitle ≠ "") :
    outsOf (stepCat cm p) = [] ∧ outsOf (stepAuth am p) = [] ∧
      outsOf (stepWiki p) = [] ∧ outsOf (stepVanilla p) = [] ∧
      eligible p = false := by
  have hb : (p.redirTitle == "") = false := by
    rw [beq_eq_false_iff_ne]
    exact h
  refine ⟨?_, ?_, ?_, ?_, ?_⟩ <;>
    simp [stepCat, stepAuth, stepWiki, stepVanilla, eligible, outsOf, hb]

/-- C3 witness at a concrete redirect record. -/
theorem redirect_records_produce_no_output_witness :
    outsOf (stepWiki
      { title := "Apollo", canonicalTitle := "", redirTitle := "Apollo 11", text := "x" }) = [] :=
  (redirect_records_produce_no_output "Category" "Authority control"
    { title := "Apollo", canonicalTitle := "", redirTitle := "Apollo 11", text := "x" }
    (by decide)).2.2.1

/-- C6: on the spec's example body with marker `Category`, the
Category-TSV strategy emits exactly one line per non-overlapping match,
with the pipe suffix dropped: the two lines `title<TAB>Science` and
`title<TAB>Art`. -/
theorem category_extraction_example :
    stepCat "Category"
        { title := "title", canonicalTitle := "", redirTitle := "",
          text := "[[Category:Science|Main]] and [[Category:Art]]" } =
      StepRes.cont ["title\tScience", "title\tArt"] [] ∧
    (categoryMatches "Category" "[[Category:Science|Main]] and [[Category:Art]]").length = 2 ∧
    mkCategoryLine "title" (String.data " Science |Main ") = "title\tScience " := by
  refine ⟨by decide, by decide, by decide⟩

/-- C7: the Authority-TSV strategy emits at most one line per record;
on a body containing the spec's example template it emits exactly
`title<TAB>{{Authority control|VIAF=123}}`, and tabs inside a matched
span are removed. -/
theorem authority_extraction_at_most_one :
    (∀ (m : String) (p : Page), (outsOf (stepAuth m p)).length ≤ 1) ∧
    stepAuth "Authority control"
        { title := "title", canonicalTitle := "", redirTitle := "",
          text := "see \x7b\x7bAuthority control|VIAF=123\x7d\x7d end" } =
      StepRes.cont ["title\t\x7b\x7bAuthority control|VIAF=123\x7d\x7d"] [] ∧
    stripTabs "\x7b\x7bAuthority\tcontrol|X\x7d\x7d" = "\x7b\x7bAuthoritycontrol|X\x7d\x7d" := by
  refine ⟨?_, by decide, by decide⟩
  intro m p
  simp only [stepAuth]
  split
  · split
    · simp [outsOf]
    · simp [outsOf]
  · simp [outsOf]

/-- C8: the Wikidata strategy preserves numbers lexically.  On the
spec's example body the envelope's `content.id` is `"Q1"` and the
serialized numeric field is exactly `123456789012345`; in general a
`Json.num` marshals back to its exact lexical text. -/
theorem wikidata_number_precision :
    stepWiki
        { title := "title", canonicalTitle := "", redirTitle := "",
          text := "\x7b\"id\":\"Q1\",\"num\":123456789012345\x7d" } =
      StepRes.cont
        ["\x7b\"title\":\"title\",\"ctitle\":\"title\",\"redirect\":\x7b\"title\":\"\"\x7d,\"content\":\x7b\"id\":\"Q1\",\"num\":123456789012345\x7d\x7d"]
        [] ∧
    jsonDecode "\x7b\"id\":\"Q1\",\"num\":123456789012345\x7d" =
      DecodeRes.ok (Json.obj [("id", Json.str "Q1"), ("num", Json.num "123456789012345")]) ∧
    (∀ (s : String) (fuel : Nat), mJson (fuel + 1) (Json.num s) = s) := by
  refine ⟨by decide, by rfl, ?_⟩
  intro s fuel
  simp [mJson]

/-- C1 (amended): a record whose body fails to parse with a genuine
decode error is skipped — one diagnostic is emitted and the worker
continues with the remaining messages unchanged.  (A body that is empty
or all-whitespace instead yields `io.EOF`, which exits the loop; see
the counterexample.) -/
theorem wikidata_parse_error_skips_and_continues (p : Page) (msgs : List (Option Page))
    (d : String) (helig : eligible p = true) (herr : jsonDecode p.text = DecodeRes.err d) :
    workerRun stepWiki (some p :: msgs) =
      ((workerRun stepWiki msgs).1, d :: (workerRun stepWiki msgs).2.1,
        (workerRun stepWiki msgs).2.2) := by
  have hstep : stepWiki p = StepRes.cont [] [d] := by
    simp only [stepWiki]
    rw [show (!(filterMatch (canonicalizeTitle p.title)) && p.redirTitle == "") = true
      from helig, herr]
    rfl
  simp [workerRun, hstep]

/-- C1 witness: an eligible record with body `"{"` produces one
diagnostic and the worker keeps running to the sentinel. -/
theorem wikidata_parse_error_skips_and_continues_witness :
    workerRun stepWiki
        [some { title := "t", canonicalTitle := "", redirTitle := "", text := "\x7b" },
          Option.none] =
      ([], ["unexpected end of JSON input"], 1) := by
  rw [wikidata_parse_error_skips_and_continues
    { title := "t", canonicalTitle := "", redirTitle := "", text := "\x7b" }
    [Option.none] "unexpected end of JSON input" (by decide) (by rfl)]
  rfl

/-- C1 counterexample: an eligible record with an empty body makes the
Wikidata worker `break` out of its loop (`io.EOF`): no diagnostic is
written and the following record — which on its own would produce an
output line — is never consumed by this worker, contradicting the claim
that an empty body is skipped with a diagnostic and the worker
continues. -/
theorem wikidata_empty_body_stops_worker :
    workerRun stepWiki
        [some { title := "t", canonicalTitle := "", redirTitle := "", text := "" },
          some { title := "u", canonicalTitle := "", redirTitle := "", text := "1" },
          Option.none] = ([], [], 1) ∧
    stepWiki { title := "t", canonicalTitle := "", redirTitle := "", text := "" } =
      StepRes.exit ∧
    (workerRun stepWiki
        [some { title := "u", canonicalTitle := "", redirTitle := "", text := "1" },
          Option.none]).1 ≠ [] := by
  refine ⟨by decide, by decide, by decide⟩

/-- C10: every worker variant sends at most one acknowledgment, and
exactly one on every exit path of its loop — receipt of the nil
sentinel, and (Wikidata) the early exit on end-of-input. -/
theorem worker_sends_single_ack :
    (∀ (cm am : String) (msgs : List (Option Page)),
        (workerRun (stepCat cm) msgs).2.2 ≤ 1 ∧ (workerRun (stepAuth am) msgs).2.2 ≤ 1 ∧
        (workerRun stepWiki msgs).2.2 ≤ 1 ∧ (workerRun stepVanilla msgs).2.2 ≤ 1) ∧
    (∀ (cm am : String) (msgs : List (Option Page)), Option.none ∈ msgs →
        (workerRun (stepCat cm) msgs).2.2 = 1 ∧ (workerRun (stepAuth am) msgs).2.2 = 1 ∧
        (workerRun stepWiki msgs).2.2 = 1 ∧ (workerRun stepVanilla msgs).2.2 = 1) ∧
    (∀ (p : Page) (msgs : List (Option Page)), stepWiki p = StepRes.exit →
        (workerRun stepWiki (some p :: msgs)).2.2 = 1) := by
  refine ⟨?_, ?_, ?_⟩
  · intro cm am msgs
    exact ⟨workerRun_acks_le _ msgs, workerRun_acks_le _ msgs,
      workerRun_acks_le _ msgs, workerRun_acks_le _ msgs⟩
  · intro cm am msgs hmem
    exact ⟨workerRun_acks_sentinel _ msgs hmem, workerRun_acks_sentinel _ msgs hmem,
      workerRun_acks_sentinel _ msgs hmem, workerRun_acks_sentinel _ msgs hmem⟩
  · intro p msgs hexit
    simp [workerRun, hexit]

/-- C10 witness: a worker that receives only the sentinel acknowledges
exactly once, in all four variants. -/
theorem worker_sends_single_ack_witness :
    (workerRun (stepCat "Category") [Option.none]).2.2 = 1 ∧
    (workerRun stepWiki [Option.none]).2.2 = 1 := by
  have h := worker_sends_single_ack.2.1 "Category" "Authority control" [Option.none]
    (by decide)
  exact ⟨h.1, h.2.2.1⟩

/-- C9: for a fixed record list and fixed strategy, any two completed
pipeline runs — whatever their worker counts and interleavings — deliver
the same multiset of lines to the sink, namely the concatenation of the
per-record outputs. -/
theorem output_multiset_independent_of_workers (step : Page → StepRes) (recs : List Page)
    (n1 n2 : Nat) (acts1 acts2 : List Act) (c1 c2 : Config)
    (h1 : runActs step (initConfig recs n1) acts1 = some c1)
    (hc1 : c1.coord = CoordPhase.closed)
    (h2 : runActs step (initConfig recs n2) acts2 = some c2)
    (hc2 : c2.coord = CoordPhase.closed) :
    (↑c1.sink : Multiset String) = ↑c2.sink ∧
      (↑c1.sink : Multiset String) = expectedLines step recs := by
  have i1 := pipeInv_run acts1 h1 (pipeInv_init step recs n1)
  have i2 := pipeInv_run acts2 h2 (pipeInv_init step recs n2)
  have e1 := (closed_sink_spec i1 hc1).1
  have e2 := (closed_sink_spec i2 hc2).1
  exact ⟨by rw [e1, e2], e1⟩

/-- C9 witness: two records under the Category strategy, run once with
two workers (lines arriving in reversed order) and once with one
worker; the sinks are equal as multisets. -/
theorem output_multiset_independent_of_workers_witness :
    (↑(["b\tB", "a\tA"] : List String) : Multiset String) =
      ↑(["a\tA", "b\tB"] : List String) :=
  (output_multiset_independent_of_workers (stepCat "Category")
    [{ title := "a", canonicalTitle := "", redirTitle := "", text := "[[Category:A]]" },
      { title := "b", canonicalTitle := "", redirTitle := "", text := "[[Category:B]]" }]
    2 1
    [Act.feed 0, Act.feed 1, Act.emit 1, Act.emit 0, Act.finish 0, Act.finish 1,
      Act.startShutdown, Act.sentinel 0, Act.sentinel 1, Act.ack 0, Act.ack 1]
    [Act.feed 0, Act.emit 0, Act.finish 0, Act.feed 0, Act.emit 0, Act.finish 0,
      Act.startShutdown, Act.sentinel 0, Act.ack 0]
    { recs := [], coord := CoordPhase.closed, workers := [WStat.done, WStat.done],
      sink := ["b\tB", "a\tA"] }
    { recs := [], coord := CoordPhase.closed, workers := [WStat.done],
      sink := ["a\tA", "b\tB"] }
    (by decide) rfl (by decide) rfl).1

theorem closed_all_disabled {step : Page → StepRes} {c : Config}
    (hc : c.coord = CoordPhase.closed) (hall : AllDone c) :
    ∀ a : Act, applyAct step c a = none := by
  intro a
  cases a with
  | feed i =>
    simp only [applyAct]
    split
    · rename_i cpv rsv owv p rs hcoord hrecs hget
      rw [hc] at hcoord
      cases hcoord
    · rfl
  | startShutdown =>
    simp only [applyAct]
    split
    · rename_i cpv rsv hcoord hrecs
      rw [hc] at hcoord
      cases hcoord
    · rfl
  | sentinel i =>
    simp only [applyAct]
    split
    · rename_i cpv owv k hcoord hget
      rw [hc] at hcoord
      cases hcoord
    · rfl
  | emit i =>
    simp only [applyAct]
    split
    · rename_i owv l ls hget
      have hmem := hall _ (List.get?_mem hget)
      cases hmem
    · rfl
  | finish i =>
    simp only [applyAct]
    split
    · rename_i owv hget
      have hmem := hall _ (List.get?_mem hget)
      cases hmem
    · rfl
  | ack i =>
    simp only [applyAct]
    split
    · rename_i cpv owv k hcoord hget
      rw [hc] at hcoord
      cases hcoord
    · rfl

/-- C4 (amended): for any worker count `n ≥ 1` and any record list none
of whose records makes the strategy exit a worker loop early, along any
interleaving: the coordinator closes the outtake only after receiving
exactly `n` acknowledgments (`countDone = n`, all workers returned, and
no action — in particular no sink write — is possible afterwards);
before that the count is strictly below `n`; any configuration with no
enabled action is a completed shutdown (so the protocol cannot
deadlock); and every interleaving is bounded by the configuration
measure (so shutdown completes in finitely many steps). -/
theorem shutdown_handshake_completes (step : Page → StepRes) (recs : List Page) (n : Nat)
    (hn : 0 < n) (hno : ∀ p ∈ recs, step p ≠ StepRes.exit)
    (acts : List Act) (c : Config)
    (hrun : runActs step (initConfig recs n) acts = some c) :
    (c.coord = CoordPhase.closed →
        countDone c.workers = n ∧ AllDone c ∧
        ∀ a : Act, applyAct step c a = none) ∧
    (c.coord ≠ CoordPhase.closed → countDone c.workers < n) ∧
    (¬ Enabled step c → c.coord = CoordPhase.closed ∧ AllDone c) ∧
    confMeasure step c + acts.length ≤ confMeasure step (initConfig recs n) := by
  have inv := pipeInv_run acts hrun (pipeInv_init step recs n)
  have sinv := stopInv_run acts hrun (pipeInv_init step recs n)
    (stopInv_init step recs n hno)
  refine ⟨?_, ?_, ?_, runActs_measure acts hrun⟩
  · intro hc
    obtain ⟨hsink, hall, hcnt⟩ := closed_sink_spec inv hc
    exact ⟨hcnt, hall, closed_all_disabled hc hall⟩
  · intro hnc
    have hdc := inv.doneCnt
    cases hcp : c.coord with
    | closed => exact absurd hcp hnc
    | feeding =>
      rw [hcp] at hdc
      simp only [acksRecvd] at hdc
      omega
    | sending k =>
      rw [hcp] at hdc
      simp only [acksRecvd] at hdc
      omega
    | awaiting k =>
      rw [hcp] at hdc
      simp only [acksRecvd] at hdc
      have := inv.awaitLt k hcp
      omega
  · intro hne
    rcases progress_or_final hn inv sinv with hfin | hen
    · exact hfin
    · exact absurd hen hne

/-- C4 witness: a one-record Vanilla run with one worker reaches the
closed state having received exactly one acknowledgment. -/
theorem shutdown_handshake_completes_witness :
    countDone [WStat.done] = 1 ∧
      AllDone
        { recs := [], coord := CoordPhase.closed, workers := [WStat.done],
          sink := ["\x7b\"title\":\"a\",\"ctitle\":\"a\",\"redirect\":\x7b\"title\":\"\"\x7d,\"text\":\"x\"\x7d"] } := by
  have h := shutdown_handshake_completes stepVanilla
    [{ title := "a", canonicalTitle := "", redirTitle := "", text := "x" }] 1
    (by decide) (by decide)
    [Act.feed 0, Act.emit 0, Act.finish 0, Act.startShutdown, Act.sentinel 0, Act.ack 0]
    { recs := [], coord := CoordPhase.closed, workers := [WStat.done],
      sink := ["\x7b\"title\":\"a\",\"ctitle\":\"a\",\"redirect\":\x7b\"title\":\"\"\x7d,\"text\":\"x\"\x7d"] }
    (by decide)
  exact ⟨(h.1 rfl).1, (h.1 rfl).2.1⟩

/-- C4 counterexample: with the Wikidata strategy, one worker and one
eligible record whose body is empty, the worker exits its loop early
(`io.EOF`) and blocks on the ack send; the coordinator then blocks
forever pushing its first sentinel.  The run reaches a configuration
that is not closed and from which no action is enabled: the shutdown
does not complete, a sentinel is left undeliverable, and the claimed
unconditional handshake fails. -/
theorem shutdown_deadlock_on_early_exit :
    runActs stepWiki
        (initConfig [{ title := "t", canonicalTitle := "", redirTitle := "", text := "" }] 1)
        [Act.feed 0, Act.startShutdown] =
      some
        { recs := [], coord := CoordPhase.sending 0, workers := [WStat.acking],
          sink := [] } ∧
    ({ recs := [], coord := CoordPhase.sending 0, workers := [WStat.acking],
        sink := [] } : Config).coord ≠ CoordPhase.closed ∧
    ∀ a : Act,
      applyAct stepWiki
        { recs := [], coord := CoordPhase.sending 0, workers := [WStat.acking], sink := [] }
        a = none := by
  refine ⟨by decide, by decide, ?_⟩
  intro a
  cases a with
  | feed i =>
    cases i with
    | zero => rfl
    | succ j => rfl
  | startShutdown => rfl
  | sentinel i =>
    cases i with
    | zero => rfl
    | succ j => rfl
  | emit i =>
    cases i with
    | zero => rfl
    | succ j => rfl
  | finish i =>
    cases i with
    | zero => rfl
    | succ j => rfl
  | ack i =>
    cases i with
    | zero => rfl
    | succ j => rfl
